import Mathlib

/-!
Doubly-linked node chains (`node.h`)

A shallow embedding of the `Node<T>` primitive and of the free functions
`insert`, `remove`, `copy`, `assign`, `size`, `clear` and `operator<<`.

* A pointer is an `Option Nat`: `none` is `nullptr`, `some a` the address `a`.
* The free store is a list of cells; cell `a` holds `some n` while a node lives
  at address `a` and `none` once it has been destroyed.  `new` takes the first
  address past the end of the store, `delete` empties the cell.
* A reference `Node<T>*&` is a `Ref`: a pointer variable outside the nodes or
  a link field of a node.
* Every operation returns an `Option`: `none` stands for undefined behaviour
  (dereferencing `nullptr` or a destroyed node) or, for the loops, for an
  exhausted iteration budget (`fuel`).
-/

namespace NodeList

/-! ## Data model -/

/-- A pointer to a node; `none` models `nullptr`. -/
abbrev Ptr := Option Nat

/-- The class `Node<T>`: user data and the two neighbour links. -/
structure Node (T : Type) where
  data : T
  pNext : Ptr
  pPrev : Ptr
deriving DecidableEq

/-- The free store, indexed by address. -/
abbrev Heap (T : Type) := List (Option (Node T))

variable {T : Type}

/-- Dereference the address `a`; `none` when no node lives there. -/
def read (h : Heap T) (a : Nat) : Option (Node T) :=
  (h[a]?).getD none

/-- The expression `new Node<T>(t)`: the node is built with both links absent
and placed at the first unused address. -/
def alloc (h : Heap T) (t : T) : Heap T × Nat :=
  (h ++ [some ⟨t, none, none⟩], h.length)

/-- The statement `delete p` for a non-null `p`. -/
def free (h : Heap T) (a : Nat) : Option (Heap T) :=
  match read h a with
  | some _ => some (h.set a none)
  | none => none

/-- A write through the pointer `a` that replaces the node by `f` of it. -/
def store (h : Heap T) (a : Nat) (f : Node T → Node T) : Option (Heap T) :=
  match read h a with
  | some n => some (h.set a (some (f n)))
  | none => none

/-- The assignment `a->pNext = p`. -/
def setNext (h : Heap T) (a : Nat) (p : Ptr) : Option (Heap T) :=
  store h a (fun n => { n with pNext := p })

/-- The assignment `a->pPrev = p`. -/
def setPrev (h : Heap T) (a : Nat) (p : Ptr) : Option (Heap T) :=
  store h a (fun n => { n with pPrev := p })

/-- The assignment `a->data = t`. -/
def setData (h : Heap T) (a : Nat) (t : T) : Option (Heap T) :=
  store h a (fun n => { n with data := t })

/-- What a reference `Node<T>*&` refers to: a pointer variable held outside
the nodes, given with the pointer it currently holds, or the `pNext` or `pPrev`
field of the node at an address. -/
inductive Ref where
  | var (p : Ptr) : Ref
  | next (q : Nat) : Ref
  | prev (q : Nat) : Ref
deriving DecidableEq

/-- Reading the pointer through a reference. -/
def loadRef (h : Heap T) : Ref → Option Ptr
  | Ref.var p => some p
  | Ref.next q => (read h q).map Node.pNext
  | Ref.prev q => (read h q).map Node.pPrev

/-- Writing the pointer `v` through a reference. -/
def storeRef (h : Heap T) (r : Ref) (v : Ptr) : Option (Heap T × Ref) :=
  match r with
  | Ref.var _ => some (h, Ref.var v)
  | Ref.next q => (setNext h q v).map fun h1 => (h1, Ref.next q)
  | Ref.prev q => (setPrev h q v).map fun h1 => (h1, Ref.prev q)

/-- Number of values of `unsigned int`, the type of the counter in `size`. -/
def uintModulus : Nat := 2 ^ 32

/-! ## The functions of `node.h` -/

/-- The function `insert(pCurrent, t, after)`: returns the store and the address
of the new node. -/
def insert (h : Heap T) (pCurrent : Ptr) (t : T) (after : Bool) :
    Option (Heap T × Nat) :=
  let newElement := h.length
  let h0 : Heap T := h ++ [some ⟨t, none, none⟩]
  match pCurrent with
  | none => some (h0, newElement)
  | some c =>
    if after then
      (read h0 c).bind fun cur =>
      match cur.pNext with
      | none =>
        -- Simple Add After
        (setPrev h0 newElement (some c)).bind fun h1 =>
        (setNext h1 c (some newElement)).bind fun h2 =>
        some (h2, newElement)
      | some _ =>
        -- Fancy Insert After
        (setNext h0 newElement cur.pNext).bind fun h1 =>
        (setPrev h1 newElement (some c)).bind fun h2 =>
        (setNext h2 c (some newElement)).bind fun h3 =>
        (read h3 newElement).bind fun ne =>
        match ne.pNext with
        | some q => (setPrev h3 q (some newElement)).bind fun h4 =>
            some (h4, newElement)
        | none => none
    else
      (read h0 c).bind fun cur =>
      match cur.pPrev with
      | none =>
        -- Simple Add Before
        (setNext h0 newElement (some c)).bind fun h1 =>
        (setPrev h1 c (some newElement)).bind fun h2 =>
        some (h2, newElement)
      | some _ =>
        -- Fancy insert before
        (setNext h0 newElement (some c)).bind fun h1 =>
        (setPrev h1 newElement cur.pPrev).bind fun h2 =>
        (setPrev h2 c (some newElement)).bind fun h3 =>
        (read h3 newElement).bind fun ne =>
        match ne.pPrev with
        | some q => (setNext h3 q (some newElement)).bind fun h4 =>
            some (h4, newElement)
        | none => none

/-- The function `remove(pRemove)`: returns the store and `pReturn`. -/
def remove (h : Heap T) (pRemove : Ptr) : Option (Heap T × Ptr) :=
  match pRemove with
  | none => some (h, none)
  | some r =>
    (read h r).bind fun n0 =>
    (match n0.pPrev with
      | some q => setNext h q n0.pNext
      | none => some h).bind fun h1 =>
    (read h1 r).bind fun n1 =>
    (match n1.pNext with
      | some q => setPrev h1 q n1.pPrev
      | none => some h1).bind fun h2 =>
    (read h2 r).bind fun n2 =>
    let pReturn : Ptr :=
      match n2.pPrev with
      | some q => some q
      | none => n2.pNext
    (free h2 r).bind fun h3 =>
    some (h3, pReturn)

/-- The loop of `size`: one iteration per unit of fuel, the counter being an
`unsigned int`. -/
def sizeLoop : Nat → Heap T → Ptr → Nat → Option Nat
  | _, _, none, size => some size
  | 0, _, some _, _ => none
  | fuel + 1, h, some a, size =>
    match read h a with
    | some n => sizeLoop fuel h n.pNext ((size + 1) % uintModulus)
    | none => none

/-- The function `size(pHead)`. -/
def size (fuel : Nat) (h : Heap T) (pHead : Ptr) : Option Nat :=
  sizeLoop fuel h pHead 0

/-- The function `clear(pHead)`: returns the store and the final value of the
reference `pHead`. -/
def clear : Nat → Heap T → Ptr → Option (Heap T × Ptr)
  | _, h, none => some (h, none)
  | 0, _, some _ => none
  | fuel + 1, h, some a =>
    (read h a).bind fun n =>
    (free h a).bind fun h1 =>
    clear fuel h1 n.pNext

/-- The loop of `copy`: `for (p = ...; p; p = p->pNext)
destCurrent = insert(destCurrent, p->data, true)`. -/
def copyLoop : Nat → Heap T → Nat → Ptr → Option (Heap T)
  | _, h, _, none => some h
  | 0, _, _, some _ => none
  | fuel + 1, h, destCurrent, some p =>
    (read h p).bind fun n =>
    (insert h (some destCurrent) n.data true).bind fun r =>
    (read r.1 p).bind fun n1 =>
    copyLoop fuel r.1 r.2 n1.pNext

/-- The function `copy(pSource)`: returns the store and `pDestination`. -/
def copy (fuel : Nat) (h : Heap T) (pSource : Ptr) : Option (Heap T × Ptr) :=
  match pSource with
  | none => some (h, none)
  | some s =>
    (read h s).bind fun n =>
    let r := alloc h n.data
    (read r.1 s).bind fun n1 =>
    (copyLoop fuel r.1 r.2 n1.pNext).bind fun h1 =>
    some (h1, some r.2)

/-- The first loop of `assign`: walks both chains, copying values.  Returns
the store and the final `pDes`, `pSrc` and `pDesPrevious`. -/
def assignWalk : Nat → Heap T → Ptr → Ptr → Ptr → Option (Heap T × Ptr × Ptr × Ptr)
  | _, h, none, pSrc, pDesPrevious => some (h, none, pSrc, pDesPrevious)
  | _, h, some d, none, pDesPrevious => some (h, some d, none, pDesPrevious)
  | 0, _, some _, some _, _ => none
  | fuel + 1, h, some d, some s, _ =>
    (read h s).bind fun sn =>
    (setData h d sn.data).bind fun h1 =>
    (read h1 d).bind fun dn =>
    (read h1 s).bind fun sn1 =>
    assignWalk fuel h1 dn.pNext sn1.pNext (some d)

/-- The second loop of `assign` (source longer than destination).  Every
iteration reads the reference `pDestination` and writes it when it is null.
Returns the store and the reference. -/
def assignGrow : Nat → Heap T → Ref → Ptr → Ptr → Option (Heap T × Ref)
  | _, h, pDestination, _, none => some (h, pDestination)
  | 0, _, _, _, some _ => none
  | fuel + 1, h, pDestination, pDes, some s =>
    (read h s).bind fun sn =>
    (insert h pDes sn.data true).bind fun r =>
    (loadRef r.1 pDestination).bind fun cur =>
    (match cur with
      | none => storeRef r.1 pDestination (some r.2)
      | some _ => some (r.1, pDestination)).bind fun w =>
    (read w.1 s).bind fun sn1 =>
    assignGrow fuel w.1 w.2 (some r.2) sn1.pNext

/-- The function `assign(pDestination, pSource)`, `pDestination` being a
reference `Node<T>*&`: returns the store and the reference. -/
def assign (fuel : Nat) (h : Heap T) (pDestination : Ref) (pSource : Ptr) :
    Option (Heap T × Ref) :=
  (loadRef h pDestination).bind fun d0 =>
  (assignWalk fuel h d0 pSource d0).bind fun w =>
  match w with
  | (h1, _, some s, pDesPrevious) =>
    -- Source list is longer than destination list
    assignGrow fuel h1 pDestination pDesPrevious (some s)
  | (h1, some d, none, _) =>
    -- Destination list is longer than source list
    (read h1 d).bind fun dn =>
    (match dn.pPrev with
      | some q => (setNext h1 q none).map fun h2 => (h2, false)
      | none => some (h1, true)).bind fun c =>
    (clear fuel c.1 (some d)).bind fun r =>
    if c.2 then storeRef r.1 pDestination none else some (r.1, pDestination)
  | (h1, none, none, _) => some (h1, pDestination)

/-! ## Specification vocabulary -/

/-- Forward traversal from `p` collecting the values, as a reader of the chain
does it. -/
def traverse : Nat → Heap T → Ptr → Option (List T)
  | _, _, none => some []
  | 0, _, some _ => none
  | fuel + 1, h, some a =>
    match read h a with
    | some n => (traverse fuel h n.pNext).map fun vs => n.data :: vs
    | none => none

/-- Following `pNext` from `p` visits exactly the nodes at `as`, in this
order, and then arrives at `q`. -/
def lsegTo (h : Heap T) : Ptr → List Nat → Ptr → Prop
  | p, [], q => p = q
  | p, a :: as, q => p = some a ∧
      match read h a with
      | some n => lsegTo h n.pNext as q
      | none => False

/-- A forward chain: following `pNext` from `p` visits the nodes at `as` and
then reaches `nullptr`. -/
def lseg (h : Heap T) (p : Ptr) (as : List Nat) : Prop :=
  lsegTo h p as none

/-- A doubly-linked segment: `lsegTo` whose `pPrev` links agree with the
`pNext` links, `prev` being the `pPrev` link of the first node. -/
def dllTo (h : Heap T) : Ptr → Ptr → List Nat → Ptr → Prop
  | _, p, [], q => p = q
  | prev, p, a :: as, q => p = some a ∧
      match read h a with
      | some n => n.pPrev = prev ∧ dllTo h (some a) n.pNext as q
      | none => False

/-- A doubly-linked chain from `p` to `nullptr`; it is well formed as a whole
chain when `prev` is `none`, that is when `p` is its head. -/
def dll (h : Heap T) (prev p : Ptr) (as : List Nat) : Prop :=
  dllTo h prev p as none

/-- The last address of `as`, or `prev` when there is none: the `pPrev` link
expected of the node that follows the segment `as`. -/
def lastPtr (prev : Ptr) (as : List Nat) : Ptr :=
  match as.getLast? with
  | some l => some l
  | none => prev

/-- The values stored at the addresses `as`. -/
def valuesAt (h : Heap T) (as : List Nat) : List T :=
  as.filterMap fun a => (read h a).map fun n => n.data

/-- A well-formed chain of `n` nodes at the addresses `0, 1, ..., n - 1`, all
holding the value 0. -/
def longChain (n : Nat) : Heap Nat :=
  (List.range n).map fun i =>
    some ⟨0, if i + 1 < n then some (i + 1) else none, if i = 0 then none else some (i - 1)⟩

/-- The chain `[1, 2, 3]`, at the addresses 0, 1, 2. -/
def chain123 : Heap Nat :=
  [some ⟨1, some 1, none⟩, some ⟨2, some 2, some 0⟩, some ⟨3, none, some 1⟩]

/-- A chain `[1, 2, 3, 4]` at the addresses 0 to 3 and a chain `[9, 8]` at the
addresses 4 and 5. -/
def store42 : Heap Nat :=
  [some ⟨1, some 1, none⟩, some ⟨2, some 2, some 0⟩, some ⟨3, some 3, some 1⟩,
   some ⟨4, none, some 2⟩, some ⟨9, some 5, none⟩, some ⟨8, none, some 4⟩]

/-- A chain `[1, 2]` at the addresses 0 and 1 and a chain `[9, 8, 7]` at the
addresses 2 to 4. -/
def store23 : Heap Nat :=
  [some ⟨1, some 1, none⟩, some ⟨2, none, some 0⟩, some ⟨9, some 3, none⟩,
   some ⟨8, some 4, some 2⟩, some ⟨7, none, some 3⟩]

/-- The nodes of the destination chain after `assign`, for a destination with
nodes `as` and a source with nodes `bs`: the destination nodes that are kept,
followed by the nodes allocated for the rest of the source. -/
def assignNodes (h : Heap T) (as bs : List Nat) : List Nat :=
  as.take bs.length ++ List.range' h.length (bs.length - as.length)

/-- Number of destroyed nodes of the store: every cell has been allocated
once, and the empty ones are those that were deleted since. -/
def deadCount (h : Heap T) : Nat :=
  h.countP fun c => c.isNone

/-- What `assign` establishes, from the store `h` with destination nodes `as`
and source nodes `bs`, in the final store `h1` with destination reference
`D1`. -/
def AssignPost (h : Heap T) (as bs : List Nat) (h1 : Heap T) (D1 : Ptr) : Prop :=
  D1 = (assignNodes h as bs).head? ∧
  h1.length = h.length + (bs.length - as.length) ∧
  deadCount h1 = deadCount h + (as.length - bs.length) ∧
  dll h1 none D1 (assignNodes h as bs) ∧
  valuesAt h1 (assignNodes h as bs) = valuesAt h bs ∧
  (∀ b ∈ as.drop bs.length, read h1 b = none) ∧
  (∀ b, b < h.length → b ∉ as → read h1 b = read h b) ∧
  (as.length = bs.length → valuesAt h as = valuesAt h bs → h1 = h)

/-- Bidirectional consistency at the node `a`: the node is live, its `pNext`
link is absent or leads to a node whose `pPrev` link is `a`, and its `pPrev`
link is absent or leads to a node whose `pNext` link is `a`. -/
def consistentAt (h : Heap T) (a : Nat) : Prop :=
  match read h a with
  | none => False
  | some n =>
    (match n.pNext with
      | none => True
      | some q => (read h q).map Node.pPrev = some (some a)) ∧
    (match n.pPrev with
      | none => True
      | some q => (read h q).map Node.pNext = some (some a))

/-- A chain in the words of the data model: following `pNext` from the head
`hd` visits the nodes `as` and reaches `nullptr`, every node is bidirectionally
consistent, the `pPrev` link of the head is absent and so is the `pNext` link
of the tail. -/
def WellLinked (h : Heap T) (hd : Ptr) (as : List Nat) : Prop :=
  lseg h hd as ∧
  (∀ a ∈ as, consistentAt h a) ∧
  (∀ a, as.head? = some a → (read h a).bind Node.pPrev = none) ∧
  (∀ a, as.getLast? = some a → (read h a).bind Node.pNext = none)

/-- The function `operator<<(out, pHead)`, whose body is `return out;`.  The
output stream is a value of any type `Out`; the result is the returned stream
together with the store, which the function cannot modify. -/
def display {Out : Type} (out : Out) (h : Heap T) (_pHead : Ptr) : Out × Heap T :=
  (out, h)

/-! ## The store: reading after writing -/

theorem read_lt {h : Heap T} {a : Nat} {n : Node T} (hr : read h a = some n) :
    a < h.length := by
  by_contra hlt
  have : h[a]? = none := List.getElem?_eq_none (Nat.le_of_not_lt hlt)
  simp [read, this] at hr

theorem read_ge {h : Heap T} {a : Nat} (ha : h.length ≤ a) : read h a = none := by
  simp [read, List.getElem?_eq_none ha]

theorem getElem?_of_read {h : Heap T} {a : Nat} {n : Node T} (hr : read h a = some n) :
    h[a]? = some (some n) := by
  have hlt := read_lt hr
  simp [read, List.getElem?_eq_getElem hlt] at hr
  simp [List.getElem?_eq_getElem hlt, hr]

theorem read_set (h : Heap T) (a b : Nat) (c : Option (Node T)) :
    read (h.set a c) b = if b = a then (if a < h.length then c else none) else read h b := by
  unfold read
  by_cases hba : b = a
  · subst hba
    by_cases hlt : b < h.length
    · simp [hlt]
    · have hl : (h.set b c).length ≤ b := by simp; omega
      simp [hlt, List.getElem?_eq_none hl]
  · have hab : a ≠ b := fun e => hba e.symm
    simp [hba, List.getElem?_set_ne hab]

theorem read_append (h : Heap T) (c : Option (Node T)) (b : Nat) :
    read (h ++ [c]) b = if b = h.length then c else read h b := by
  unfold read
  by_cases hb : b = h.length
  · subst hb; simp
  · rcases Nat.lt_or_gt_of_ne hb with hlt | hgt
    · simp [hb, List.getElem?_append_left hlt]
    · have h1 : (h ++ [c]).length ≤ b := by simp; omega
      have h2 : h.length ≤ b := by omega
      simp [hb, List.getElem?_eq_none h1, List.getElem?_eq_none h2]

theorem store_some {h : Heap T} {a : Nat} {n : Node T} (f : Node T → Node T)
    (hr : read h a = some n) : store h a f = some (h.set a (some (f n))) := by
  simp [store, hr]

theorem store_inv {h h1 : Heap T} {a : Nat} {f : Node T → Node T}
    (hs : store h a f = some h1) :
    ∃ n, read h a = some n ∧ h1 = h.set a (some (f n)) := by
  unfold store at hs
  cases hr : read h a with
  | none => simp [hr] at hs
  | some n => simp [hr] at hs; exact ⟨n, rfl, hs.symm⟩

theorem read_set_live {h : Heap T} {a : Nat} {n : Node T} (hr : read h a = some n)
    (c : Option (Node T)) (b : Nat) :
    read (h.set a c) b = if b = a then c else read h b := by
  rw [read_set]; simp [read_lt hr]

theorem free_some {h : Heap T} {a : Nat} {n : Node T} (hr : read h a = some n) :
    free h a = some (h.set a none) := by
  simp [free, hr]

theorem set_self_of_read {h : Heap T} {a : Nat} {n : Node T} (hr : read h a = some n) :
    h.set a (some n) = h := by
  apply List.ext_getElem?
  intro i
  by_cases hi : i = a
  · subst hi; simp [List.getElem?_set, read_lt hr, getElem?_of_read hr]
  · have : a ≠ i := fun e => hi e.symm
    simp [List.getElem?_set_ne this]

/-! ## Chains -/

theorem lsegTo_cons {h : Heap T} {p q : Ptr} {a : Nat} {as : List Nat} :
    lsegTo h p (a :: as) q ↔
      p = some a ∧ ∃ n, read h a = some n ∧ lsegTo h n.pNext as q := by
  rw [lsegTo]
  cases hr : read h a with
  | none => simp
  | some n => simp

theorem dllTo_cons {h : Heap T} {prev p q : Ptr} {a : Nat} {as : List Nat} :
    dllTo h prev p (a :: as) q ↔
      p = some a ∧ ∃ n, read h a = some n ∧ n.pPrev = prev ∧
        dllTo h (some a) n.pNext as q := by
  rw [dllTo]
  cases hr : read h a with
  | none => simp
  | some n => simp

theorem dllTo_lsegTo {h : Heap T} {as : List Nat} :
    ∀ {prev p q : Ptr}, dllTo h prev p as q → lsegTo h p as q := by
  induction as with
  | nil => intro prev p q hd; simpa [dllTo, lsegTo] using hd
  | cons a as ih =>
    intro prev p q hd
    obtain ⟨hp, n, hr, _, hrest⟩ := dllTo_cons.mp hd
    exact lsegTo_cons.mpr ⟨hp, n, hr, ih hrest⟩

theorem dll_lseg {h : Heap T} {as : List Nat} {prev p : Ptr} (hd : dll h prev p as) :
    lseg h p as :=
  dllTo_lsegTo hd

theorem lsegTo_live {h : Heap T} {as : List Nat} :
    ∀ {p q : Ptr}, lsegTo h p as q → ∀ a ∈ as, ∃ n, read h a = some n := by
  induction as with
  | nil => intro p q _ a ha; simp at ha
  | cons b as ih =>
    intro p q hl a ha
    obtain ⟨_, n, hr, hrest⟩ := lsegTo_cons.mp hl
    rcases List.mem_cons.mp ha with rfl | hmem
    · exact ⟨n, hr⟩
    · exact ih hrest a hmem

theorem lsegTo_lt {h : Heap T} {as : List Nat} {p q : Ptr} (hl : lsegTo h p as q) :
    ∀ a ∈ as, a < h.length := by
  intro a ha
  obtain ⟨n, hr⟩ := lsegTo_live hl a ha
  exact read_lt hr

/-- A segment only depends on the `pNext` links of its own nodes. -/
theorem lsegTo_congr {h h1 : Heap T} {as : List Nat} :
    ∀ {p q : Ptr},
      (∀ a ∈ as, (read h1 a).map Node.pNext = (read h a).map Node.pNext) →
      lsegTo h p as q → lsegTo h1 p as q := by
  induction as with
  | nil => intro p q _ hl; simpa [lsegTo] using hl
  | cons a as ih =>
    intro p q hsame hl
    obtain ⟨hp, n, hr, hrest⟩ := lsegTo_cons.mp hl
    have ha := hsame a (List.mem_cons_self a as)
    rw [hr] at ha
    cases hr1 : read h1 a with
    | none => simp [hr1] at ha
    | some n1 =>
      simp [hr1] at ha
      refine lsegTo_cons.mpr ⟨hp, n1, hr1, ?_⟩
      rw [ha]
      exact ih (fun b hb => hsame b (List.mem_cons_of_mem a hb)) hrest

/-- A doubly-linked segment only depends on the links of its own nodes. -/
theorem dllTo_congr {h h1 : Heap T} {as : List Nat} :
    ∀ {prev p q : Ptr},
      (∀ a ∈ as, (read h1 a).map Node.pNext = (read h a).map Node.pNext) →
      (∀ a ∈ as, (read h1 a).map Node.pPrev = (read h a).map Node.pPrev) →
      dllTo h prev p as q → dllTo h1 prev p as q := by
  induction as with
  | nil => intro prev p q _ _ hl; simpa [dllTo] using hl
  | cons a as ih =>
    intro prev p q hn hpv hl
    obtain ⟨hp, n, hr, hprev, hrest⟩ := dllTo_cons.mp hl
    have ha := hn a (List.mem_cons_self a as)
    have hb := hpv a (List.mem_cons_self a as)
    rw [hr] at ha hb
    cases hr1 : read h1 a with
    | none => simp [hr1] at ha
    | some n1 =>
      simp [hr1] at ha hb
      refine dllTo_cons.mpr ⟨hp, n1, hr1, hb.trans hprev, ?_⟩
      rw [ha]
      exact ih (fun b hb => hn b (List.mem_cons_of_mem a hb))
        (fun b hb => hpv b (List.mem_cons_of_mem a hb)) hrest

theorem dllTo_frame {h h1 : Heap T} {as : List Nat} {prev p q : Ptr}
    (hsame : ∀ a ∈ as, read h1 a = read h a) (hd : dllTo h prev p as q) :
    dllTo h1 prev p as q :=
  dllTo_congr (fun a ha => by rw [hsame a ha]) (fun a ha => by rw [hsame a ha]) hd

theorem lsegTo_frame {h h1 : Heap T} {as : List Nat} {p q : Ptr}
    (hsame : ∀ a ∈ as, read h1 a = read h a) (hd : lsegTo h p as q) :
    lsegTo h1 p as q :=
  lsegTo_congr (fun a ha => by rw [hsame a ha]) hd

theorem valuesAt_congr {h h1 : Heap T} {as : List Nat}
    (hsame : ∀ a ∈ as, (read h1 a).map Node.data = (read h a).map Node.data) :
    valuesAt h1 as = valuesAt h as := by
  unfold valuesAt
  induction as with
  | nil => rfl
  | cons a as ih =>
    have ha := hsame a (List.mem_cons_self a as)
    have hrest := ih (fun b hb => hsame b (List.mem_cons_of_mem a hb))
    simp only [List.filterMap_cons, hrest]
    have e : ∀ x : Heap T, Option.map (fun n => n.data) (read x a)
        = (read x a).map Node.data := fun _ => rfl
    rw [e, e, ha]

theorem lsegTo_append {h : Heap T} {xs ys : List Nat} :
    ∀ {p q : Ptr}, lsegTo h p (xs ++ ys) q ↔ ∃ m, lsegTo h p xs m ∧ lsegTo h m ys q := by
  induction xs with
  | nil => intro p q; simp [lsegTo]
  | cons a xs ih =>
    intro p q
    simp only [List.cons_append, lsegTo_cons, ih]
    constructor
    · rintro ⟨hp, n, hr, m, h1, h2⟩
      exact ⟨m, ⟨hp, n, hr, h1⟩, h2⟩
    · rintro ⟨m, ⟨hp, n, hr, h1⟩, h2⟩
      exact ⟨hp, n, hr, m, h1, h2⟩

theorem lastPtr_nil (prev : Ptr) : lastPtr prev [] = prev := rfl

theorem lastPtr_cons (prev : Ptr) (a : Nat) (as : List Nat) :
    lastPtr prev (a :: as) = lastPtr (some a) as := by
  cases as with
  | nil => simp [lastPtr]
  | cons b bs =>
    have e : (b :: bs).getLast? = some ((b :: bs).getLast (List.cons_ne_nil b bs)) :=
      List.getLast?_eq_getLast _ _
    simp only [lastPtr, List.getLast?_cons_cons, e]

theorem lastPtr_append_singleton (prev : Ptr) (as : List Nat) (a : Nat) :
    lastPtr prev (as ++ [a]) = some a := by
  simp [lastPtr]

theorem dllTo_append {h : Heap T} {xs ys : List Nat} :
    ∀ {prev p q : Ptr}, dllTo h prev p (xs ++ ys) q ↔
      ∃ m, dllTo h prev p xs m ∧ dllTo h (lastPtr prev xs) m ys q := by
  induction xs with
  | nil => intro prev p q; simp [dllTo, lastPtr_nil]
  | cons a xs ih =>
    intro prev p q
    simp only [List.cons_append, dllTo_cons, ih, lastPtr_cons]
    constructor
    · rintro ⟨hp, n, hr, hv, m, h1, h2⟩
      exact ⟨m, ⟨hp, n, hr, hv, h1⟩, h2⟩
    · rintro ⟨m, ⟨hp, n, hr, hv, h1⟩, h2⟩
      exact ⟨hp, n, hr, hv, m, h1, h2⟩

/-- The nodes visited from a pointer are determined by the store. -/
theorem lseg_unique {h : Heap T} {as : List Nat} :
    ∀ {p : Ptr} {bs : List Nat}, lseg h p as → lseg h p bs → as = bs := by
  induction as with
  | nil =>
    intro p bs ha hb
    have hp : p = none := by simpa [lseg, lsegTo] using ha
    cases bs with
    | nil => rfl
    | cons b bs =>
      obtain ⟨hp1, _⟩ := lsegTo_cons.mp hb
      rw [hp] at hp1; cases hp1
  | cons a as ih =>
    intro p bs ha hb
    obtain ⟨hp, n, hr, hrest⟩ := lsegTo_cons.mp ha
    cases bs with
    | nil =>
      have hp1 : p = none := by simpa [lseg, lsegTo] using hb
      rw [hp] at hp1; cases hp1
    | cons b bs =>
      obtain ⟨hp1, n1, hr1, hrest1⟩ := lsegTo_cons.mp hb
      rw [hp] at hp1
      cases hp1
      rw [hr] at hr1
      cases hr1
      rw [ih hrest hrest1]

/-- A chain that reaches `nullptr` visits no node twice. -/
theorem lseg_nodup {h : Heap T} {as : List Nat} :
    ∀ {p : Ptr}, lseg h p as → as.Nodup := by
  induction as with
  | nil => intro _ _; exact List.nodup_nil
  | cons a as ih =>
    intro p hl
    obtain ⟨hp, n, hr, hrest⟩ := lsegTo_cons.mp hl
    refine List.nodup_cons.mpr ⟨?_, ih hrest⟩
    intro hmem
    obtain ⟨xs, ys, hsplit⟩ := List.append_of_mem hmem
    have hrest1 : lsegTo h n.pNext (xs ++ a :: ys) none := by rw [← hsplit]; exact hrest
    obtain ⟨m, _, htail⟩ := lsegTo_append.mp hrest1
    have hm : m = some a := (lsegTo_cons.mp htail).1
    rw [hm] at htail
    rw [hp] at hl
    have heq := lseg_unique hl htail
    have hlen := congrArg List.length heq
    rw [hsplit] at hlen
    simp at hlen
    omega

theorem dll_nodup {h : Heap T} {as : List Nat} {prev p : Ptr} (hd : dll h prev p as) :
    as.Nodup :=
  lseg_nodup (dll_lseg hd)

/-! ## `traverse` and `size` on a chain -/

theorem traverse_lseg {h : Heap T} {as : List Nat} :
    ∀ {p : Ptr} {fuel : Nat}, lseg h p as → as.length ≤ fuel →
      traverse fuel h p = some (valuesAt h as) := by
  induction as with
  | nil =>
    intro p fuel hl _
    have hp : p = none := by simpa [lseg, lsegTo] using hl
    subst hp
    cases fuel <;> simp [traverse, valuesAt]
  | cons a as ih =>
    intro p fuel hl hf
    obtain ⟨hp, n, hr, hrest⟩ := lsegTo_cons.mp hl
    subst hp
    cases fuel with
    | zero => simp at hf
    | succ fuel =>
      have hf1 : as.length ≤ fuel := by simpa using hf
      have := ih hrest hf1
      simp [traverse, hr, this, valuesAt]

theorem sizeLoop_lseg {h : Heap T} {as : List Nat} :
    ∀ {p : Ptr} {fuel acc : Nat}, lseg h p as → as.length ≤ fuel → acc < uintModulus →
      sizeLoop fuel h p acc = some ((acc + as.length) % uintModulus) := by
  induction as with
  | nil =>
    intro p fuel acc hl _ hacc
    have hp : p = none := by simpa [lseg, lsegTo] using hl
    subst hp
    cases fuel <;> simp [sizeLoop, Nat.mod_eq_of_lt hacc]
  | cons a as ih =>
    intro p fuel acc hl hf hacc
    obtain ⟨hp, n, hr, hrest⟩ := lsegTo_cons.mp hl
    subst hp
    cases fuel with
    | zero => simp at hf
    | succ fuel =>
      have hf1 : as.length ≤ fuel := by simpa using hf
      have hpos : 0 < uintModulus := by unfold uintModulus; positivity
      have hacc1 : (acc + 1) % uintModulus < uintModulus := Nat.mod_lt _ hpos
      have := ih hrest hf1 hacc1
      simp only [sizeLoop, hr, this, List.length_cons]
      congr 1
      rw [Nat.add_mod, Nat.mod_mod, ← Nat.add_mod]
      congr 1
      omega

theorem size_lseg {h : Heap T} {as : List Nat} {p : Ptr} {fuel : Nat}
    (hl : lseg h p as) (hf : as.length ≤ fuel) :
    size fuel h p = some (as.length % uintModulus) := by
  have hpos : 0 < uintModulus := by unfold uintModulus; positivity
  have := sizeLoop_lseg hl hf hpos
  simpa [size] using this

/-! ## `insert` -/

theorem insert_null (h : Heap T) (t : T) (after : Bool) :
    insert h none t after = some (h ++ [some ⟨t, none, none⟩], h.length) := by
  simp [insert]

/-- What `insert(c, t, true)` leaves in the store. -/
theorem insert_after_spec {h : Heap T} {c : Nat} {cur : Node T} (t : T)
    (hc : read h c = some cur)
    (hq : ∀ q, cur.pNext = some q → q ≠ c ∧ ∃ qn, read h q = some qn) :
    ∃ h1, insert h (some c) t true = some (h1, h.length) ∧
      h1.length = h.length + 1 ∧
      ∀ b, read h1 b =
        if b = h.length then some ⟨t, cur.pNext, some c⟩
        else if b = c then some { cur with pNext := some h.length }
        else if cur.pNext = some b then
          (read h b).map fun n => { n with pPrev := some h.length }
        else read h b := by
  have hce : c ≠ h.length := Nat.ne_of_lt (read_lt hc)
  have hec : h.length ≠ c := fun e => hce e.symm
  cases hnext : cur.pNext with
  | none =>
    refine ⟨((h ++ [some (Node.mk t none none)]).set h.length (some ⟨t, none, some c⟩)).set c
      (some { cur with pNext := some h.length }), ?_, ?_, ?_⟩
    · simp [insert, store, setPrev, setNext, read_set, read_append, hc, hce, hnext]
    · simp
    · intro b
      simp only [read_set, read_append, List.length_set, List.length_append,
        List.length_singleton]
      by_cases hbe : b = h.length
      · subst hbe; simp [hec]
      · by_cases hbc : b = c
        · subst hbc; simp [hbe, read_lt hc, Nat.lt_succ_of_lt]
        · simp [hbe, hbc]
  | some q =>
    obtain ⟨hqc, qn, hqn⟩ := hq q hnext
    have hqe : q ≠ h.length := Nat.ne_of_lt (read_lt hqn)
    have heq : h.length ≠ q := fun e => hqe e.symm
    have hcq : c ≠ q := fun e => hqc e.symm
    refine ⟨((((h ++ [some (Node.mk t none none)]).set h.length (some ⟨t, some q, none⟩)).set
      h.length (some ⟨t, some q, some c⟩)).set c
      (some { cur with pNext := some h.length })).set q
      (some { qn with pPrev := some h.length }), ?_, ?_, ?_⟩
    · simp [insert, store, setPrev, setNext, read_set, read_append, hc, hce, hnext,
        hqn, hqe, hqc, hec, heq, hcq, read_lt hc, Nat.lt_succ_of_lt]
    · simp
    · intro b
      simp only [read_set, read_append, List.length_set, List.length_append,
        List.length_singleton]
      by_cases hbe : b = h.length
      · subst hbe; simp [hec, heq]
      · by_cases hbc : b = c
        · subst hbc; simp [hbe, hcq, read_lt hc, Nat.lt_succ_of_lt]
        · by_cases hbq : b = q
          · subst hbq; simp [hbe, hbc, hqn, read_lt hqn, Nat.lt_succ_of_lt]
          · have : ¬ q = b := fun e => hbq e.symm
            simp [hbe, hbc, hbq, this]

/-- What `insert(c, t, false)` leaves in the store. -/
theorem insert_before_spec {h : Heap T} {c : Nat} {cur : Node T} (t : T)
    (hc : read h c = some cur)
    (hq : ∀ q, cur.pPrev = some q → q ≠ c ∧ ∃ qn, read h q = some qn) :
    ∃ h1, insert h (some c) t false = some (h1, h.length) ∧
      h1.length = h.length + 1 ∧
      ∀ b, read h1 b =
        if b = h.length then some ⟨t, some c, cur.pPrev⟩
        else if b = c then some { cur with pPrev := some h.length }
        else if cur.pPrev = some b then
          (read h b).map fun n => { n with pNext := some h.length }
        else read h b := by
  have hce : c ≠ h.length := Nat.ne_of_lt (read_lt hc)
  have hec : h.length ≠ c := fun e => hce e.symm
  cases hprev : cur.pPrev with
  | none =>
    refine ⟨((h ++ [some (Node.mk t none none)]).set h.length (some ⟨t, some c, none⟩)).set c
      (some { cur with pPrev := some h.length }), ?_, ?_, ?_⟩
    · simp [insert, store, setPrev, setNext, read_set, read_append, hc, hce, hprev]
    · simp
    · intro b
      simp only [read_set, read_append, List.length_set, List.length_append,
        List.length_singleton]
      by_cases hbe : b = h.length
      · subst hbe; simp [hec]
      · by_cases hbc : b = c
        · subst hbc; simp [hbe, read_lt hc, Nat.lt_succ_of_lt]
        · simp [hbe, hbc]
  | some q =>
    obtain ⟨hqc, qn, hqn⟩ := hq q hprev
    have hqe : q ≠ h.length := Nat.ne_of_lt (read_lt hqn)
    have heq : h.length ≠ q := fun e => hqe e.symm
    have hcq : c ≠ q := fun e => hqc e.symm
    refine ⟨((((h ++ [some (Node.mk t none none)]).set h.length (some ⟨t, some c, none⟩)).set
      h.length (some ⟨t, some c, some q⟩)).set c
      (some { cur with pPrev := some h.length })).set q
      (some { qn with pNext := some h.length }), ?_, ?_, ?_⟩
    · simp [insert, store, setPrev, setNext, read_set, read_append, hc, hce, hprev,
        hqn, hqe, hqc, hec, heq, hcq, read_lt hc, Nat.lt_succ_of_lt]
    · simp
    · intro b
      simp only [read_set, read_append, List.length_set, List.length_append,
        List.length_singleton]
      by_cases hbe : b = h.length
      · subst hbe; simp [hec, heq]
      · by_cases hbc : b = c
        · subst hbc; simp [hbe, hcq, read_lt hc, Nat.lt_succ_of_lt]
        · by_cases hbq : b = q
          · subst hbq; simp [hbe, hbc, hqn, read_lt hqn, Nat.lt_succ_of_lt]
          · have : ¬ q = b := fun e => hbq e.symm
            simp [hbe, hbc, hbq, this]

/-! ## `remove` -/

/-- What `remove(r)` returns and leaves in the store, for a live node `r` whose
neighbours are live nodes other than `r`. -/
theorem remove_spec {h : Heap T} {r : Nat} {n : Node T}
    (hr : read h r = some n)
    (hp : ∀ q, n.pPrev = some q → q ≠ r ∧ ∃ qn, read h q = some qn)
    (hx : ∀ q, n.pNext = some q → q ≠ r ∧ ∃ qn, read h q = some qn) :
    ∃ h1, remove h (some r) =
        some (h1, match n.pPrev with
                  | some q => some q
                  | none => n.pNext) ∧
      h1.length = h.length ∧
      ∀ b, read h1 b =
        if b = r then none
        else (read h b).map fun m =>
          { m with pNext := if n.pPrev = some b then n.pNext else m.pNext,
                   pPrev := if n.pNext = some b then n.pPrev else m.pPrev } := by
  cases hprev : n.pPrev with
  | none =>
    cases hnext : n.pNext with
    | none =>
      refine ⟨h.set r none, ?_, ?_, ?_⟩
      · simp [remove, free, hr, hprev, hnext]
      · simp
      · intro b
        rw [read_set_live hr]
        by_cases hbr : b = r <;> simp [hbr]
    | some x =>
      obtain ⟨hxr, xn, hxn⟩ := hx x hnext
      have hrx : r ≠ x := fun e => hxr e.symm
      refine ⟨(h.set x (some { xn with pPrev := none })).set r none, ?_, ?_, ?_⟩
      · simp [remove, free, store, setPrev, read_set, hr, hprev, hnext, hxn, hrx]
      · simp
      · intro b
        simp only [read_set, List.length_set]
        by_cases hbr : b = r
        · simp [hbr]
        · by_cases hbx : b = x
          · subst hbx; simp [hbr, hxn, read_lt hxn]
          · have : ¬ x = b := fun e => hbx e.symm
            simp [hbr, hbx, this]
  | some q =>
    obtain ⟨hqr, qn, hqn⟩ := hp q hprev
    have hrq : r ≠ q := fun e => hqr e.symm
    cases hnext : n.pNext with
    | none =>
      refine ⟨(h.set q (some { qn with pNext := none })).set r none, ?_, ?_, ?_⟩
      · simp [remove, free, store, setNext, read_set, hr, hprev, hnext, hqn, hrq]
      · simp
      · intro b
        simp only [read_set, List.length_set]
        by_cases hbr : b = r
        · simp [hbr]
        · by_cases hbq : b = q
          · subst hbq; simp [hbr, hqn, read_lt hqn]
          · have : ¬ q = b := fun e => hbq e.symm
            simp [hbr, hbq, this]
    | some x =>
      obtain ⟨hxr, xn, hxn⟩ := hx x hnext
      have hrx : r ≠ x := fun e => hxr e.symm
      by_cases hxq : x = q
      · subst hxq
        refine ⟨((h.set x (some { qn with pNext := some x })).set x
          (some { qn with pNext := some x, pPrev := some x })).set r none, ?_, ?_, ?_⟩
        · simp [remove, free, store, setNext, setPrev, read_set, hr, hprev, hnext, hqn,
            hrq, hrx, read_lt hqn]
        · simp
        · intro b
          simp only [read_set, List.length_set]
          by_cases hbr : b = r
          · simp [hbr]
          · by_cases hbx : b = x
            · subst hbx; simp [hbr, hqn, read_lt hqn]
            · have : ¬ x = b := fun e => hbx e.symm
              simp [hbr, hbx, this]
      · have hqx : q ≠ x := fun e => hxq e.symm
        refine ⟨((h.set q (some { qn with pNext := some x })).set x
          (some { xn with pPrev := some q })).set r none, ?_, ?_, ?_⟩
        · simp [remove, free, store, setNext, setPrev, read_set, hr, hprev, hnext, hqn, hxn,
            hrq, hrx, hxq, hqx]
        · simp
        · intro b
          simp only [read_set, List.length_set]
          by_cases hbr : b = r
          · simp [hbr]
          · by_cases hbq : b = q
            · subst hbq; simp [hbr, hqn, read_lt hqn, hqx, hxq]
            · have hne : ¬ q = b := fun e => hbq e.symm
              by_cases hbx : b = x
              · subst hbx; simp [hbr, hbq, hne, hxn, read_lt hxn]
              · have : ¬ x = b := fun e => hbx e.symm
                simp [hbr, hbq, hbx, this, hne]

/-! ## More on chains -/

theorem dllTo_nil {h : Heap T} {prev p q : Ptr} : dllTo h prev p [] q ↔ p = q := by
  simp [dllTo]

theorem lsegTo_nil {h : Heap T} {p q : Ptr} : lsegTo h p [] q ↔ p = q := by
  simp [lsegTo]

theorem dllTo_snoc {h : Heap T} {xs : List Nat} {a : Nat} {prev p q : Ptr} :
    dllTo h prev p (xs ++ [a]) q ↔
      dllTo h prev p xs (some a) ∧
        ∃ n, read h a = some n ∧ n.pPrev = lastPtr prev xs ∧ n.pNext = q := by
  rw [dllTo_append]
  constructor
  · rintro ⟨m, h1, h2⟩
    obtain ⟨hm, n, hr, hv, hnil⟩ := dllTo_cons.mp h2
    subst hm
    exact ⟨h1, n, hr, hv, dllTo_nil.mp hnil⟩
  · rintro ⟨h1, n, hr, hv, hq⟩
    exact ⟨some a, h1, dllTo_cons.mpr ⟨rfl, n, hr, hv, dllTo_nil.mpr hq⟩⟩

theorem valuesAt_nil (h : Heap T) : valuesAt h [] = [] := rfl

theorem valuesAt_cons {h : Heap T} {a : Nat} {n : Node T} (hr : read h a = some n)
    (as : List Nat) : valuesAt h (a :: as) = n.data :: valuesAt h as := by
  simp [valuesAt, hr]

theorem valuesAt_append (h : Heap T) (xs ys : List Nat) :
    valuesAt h (xs ++ ys) = valuesAt h xs ++ valuesAt h ys := by
  simp [valuesAt]

theorem valuesAt_length {h : Heap T} {as : List Nat}
    (hlive : ∀ a ∈ as, ∃ n, read h a = some n) : (valuesAt h as).length = as.length := by
  induction as with
  | nil => rfl
  | cons a as ih =>
    obtain ⟨n, hr⟩ := hlive a (List.mem_cons_self a as)
    rw [valuesAt_cons hr]
    simp [ih (fun b hb => hlive b (List.mem_cons_of_mem a hb))]

theorem valuesAt_frame {h h1 : Heap T} {as : List Nat}
    (hsame : ∀ a ∈ as, read h1 a = read h a) : valuesAt h1 as = valuesAt h as :=
  valuesAt_congr fun a ha => by rw [hsame a ha]

theorem insertIdx_append_length {α : Type} (xs ys : List α) (v : α) :
    (xs ++ ys).insertIdx xs.length v = xs ++ v :: ys := by
  induction xs with
  | nil => rfl
  | cons x xs ih =>
    have e : (x :: (xs ++ ys)).insertIdx (xs.length + 1) v
        = x :: (xs ++ ys).insertIdx xs.length v := rfl
    simp only [List.length_cons, List.cons_append, e, ih]

theorem eraseIdx_append_length {α : Type} (xs ys : List α) (v : α) :
    (xs ++ v :: ys).eraseIdx xs.length = xs ++ ys := by
  induction xs with
  | nil => rfl
  | cons x xs ih => simp [ih]

theorem nil_or_snoc (xs : List Nat) : xs = [] ∨ ∃ xs1 b, xs = xs1 ++ [b] := by
  rcases List.eq_nil_or_concat xs with e | ⟨xs1, b, e⟩
  · exact Or.inl e
  · exact Or.inr ⟨xs1, b, by rw [e, List.concat_eq_append]⟩

theorem lastPtr_eq_some {xs : List Nat} {q : Nat} (hl : lastPtr none xs = some q) :
    ∃ xs1, xs = xs1 ++ [q] := by
  rcases nil_or_snoc xs with rfl | ⟨xs1, b, rfl⟩
  · simp [lastPtr] at hl
  · rw [lastPtr_append_singleton] at hl
    cases hl
    exact ⟨xs1, rfl⟩

theorem lastPtr_eq_none {xs : List Nat} (hl : lastPtr none xs = none) : xs = [] := by
  rcases nil_or_snoc xs with rfl | ⟨xs1, b, rfl⟩
  · rfl
  · rw [lastPtr_append_singleton] at hl
    cases hl

/-- Splitting a well-formed chain at one of its nodes. -/
theorem dll_split {h : Heap T} {hd : Ptr} {xs ys : List Nat} {c : Nat}
    (hwf : dll h none hd (xs ++ c :: ys)) :
    ∃ cur, read h c = some cur ∧ cur.pPrev = lastPtr none xs ∧
      dllTo h none hd xs (some c) ∧ dll h (some c) cur.pNext ys ∧
      c ∉ xs ∧ c ∉ ys ∧ (∀ b ∈ xs, b ∉ ys) ∧
      (∀ b ∈ xs ++ c :: ys, b < h.length) := by
  obtain ⟨m, hxs, hcy⟩ := dllTo_append.mp hwf
  obtain ⟨hm, cur, hc, hcprev, hys⟩ := dllTo_cons.mp hcy
  subst hm
  have hnd := dll_nodup hwf
  have hlt := lsegTo_lt (dllTo_lsegTo hwf)
  rw [List.nodup_append] at hnd
  obtain ⟨_, hcys, hdisj⟩ := hnd
  refine ⟨cur, hc, hcprev, hxs, hys, ?_, (List.nodup_cons.mp hcys).1, ?_, hlt⟩
  · intro hmem
    exact hdisj hmem (List.mem_cons_self c ys)
  · intro b hb hby
    exact hdisj hb (List.mem_cons_of_mem c hby)

/-- Inserting before a node of a well-formed chain: the resulting store and
chain. -/
theorem insert_before_dll {h : Heap T} {hd : Ptr} {xs ys : List Nat} {c : Nat} (v : T)
    (hwf : dll h none hd (xs ++ c :: ys)) :
    ∃ cur h1, read h c = some cur ∧ cur.pPrev = lastPtr none xs ∧
      insert h (some c) v false = some (h1, h.length) ∧
      h1.length = h.length + 1 ∧
      (∀ b, read h1 b =
        if b = h.length then some ⟨v, some c, cur.pPrev⟩
        else if b = c then some { cur with pPrev := some h.length }
        else if cur.pPrev = some b then
          (read h b).map fun n => { n with pNext := some h.length }
        else read h b) ∧
      dll h1 none (if xs = [] then some h.length else hd) (xs ++ h.length :: c :: ys) := by
  obtain ⟨cur, hc, hcprev, hxs, hys, hcx, hcy, hxy, hlt⟩ := dll_split hwf
  have hq : ∀ q, cur.pPrev = some q → q ≠ c ∧ ∃ qn, read h q = some qn := by
    intro q hq
    rw [hcprev] at hq
    obtain ⟨xs1, rfl⟩ := lastPtr_eq_some hq
    have hqx : q ∈ xs1 ++ [q] := by simp
    refine ⟨fun e => hcx (e ▸ hqx), lsegTo_live (dllTo_lsegTo hxs) q hqx⟩
  obtain ⟨h1, hins, hlen, hread⟩ := insert_before_spec v hc hq
  refine ⟨cur, h1, hc, hcprev, hins, hlen, hread, ?_⟩
  have hce : c ≠ h.length := Nat.ne_of_lt (hlt c (by simp))
  have hframe_ys : ∀ b ∈ ys, read h1 b = read h b := by
    intro b hb
    have hbe : b ≠ h.length := Nat.ne_of_lt (hlt b (by simp [hb]))
    have hbc : b ≠ c := fun e => hcy (e ▸ hb)
    have hbp : cur.pPrev ≠ some b := by
      rw [hcprev]
      intro hl
      obtain ⟨xs1, rfl⟩ := lastPtr_eq_some hl
      exact hxy b (by simp) hb
    rw [hread b]; simp [hbe, hbc, hbp]
  have hrc : read h1 c = some { cur with pPrev := some h.length } := by
    rw [hread c]; simp [hce]
  have htail : dllTo h1 (some h.length) (some c) (c :: ys) none :=
    dllTo_cons.mpr ⟨rfl, _, hrc, rfl, dllTo_frame hframe_ys hys⟩
  have hre : read h1 h.length = some ⟨v, some c, cur.pPrev⟩ := by
    rw [hread h.length]; simp
  rcases nil_or_snoc xs with rfl | ⟨xs1, q, rfl⟩
  · simp only [if_true, List.nil_append]
    exact dllTo_cons.mpr ⟨rfl, _, hre, hcprev, htail⟩
  · have hne : xs1 ++ [q] ≠ [] := by simp
    simp only [hne, if_false]
    obtain ⟨hxs1, qn, hqn, hqprev, hqnext⟩ := dllTo_snoc.mp hxs
    have hcp : cur.pPrev = some q := by rw [hcprev, lastPtr_append_singleton]
    have hqe : q ≠ h.length := Nat.ne_of_lt (hlt q (by simp))
    have hqc : q ≠ c := fun e => hcx (by simp [e])
    have hnd := dll_nodup hwf
    have hqx1 : q ∉ xs1 := by
      have : (xs1 ++ [q]).Nodup := (List.nodup_append.mp hnd).1
      have := (List.nodup_append.mp this).2.2
      intro hmem
      exact this hmem (List.mem_singleton_self q)
    have hframe_xs : ∀ b ∈ xs1, read h1 b = read h b := by
      intro b hb
      have hbe : b ≠ h.length := Nat.ne_of_lt (hlt b (by simp [hb]))
      have hbc : b ≠ c := fun e => hcx (by simp [← e, hb])
      have hbq : q ≠ b := fun e => hqx1 (e ▸ hb)
      rw [hread b]; simp [hbe, hbc, hcp, hbq]
    have hrq : read h1 q = some { qn with pNext := some h.length } := by
      rw [hread q]; simp [hqe, hqc, hcp, hqn]
    refine dllTo_append.mpr ⟨some h.length, dllTo_snoc.mpr
      ⟨dllTo_frame hframe_xs hxs1, _, hrq, hqprev, rfl⟩, ?_⟩
    exact dllTo_cons.mpr ⟨rfl, _, hre, hcprev, htail⟩

/-- Inserting after a node of a well-formed chain: the resulting store and
chain. -/
theorem insert_after_dll {h : Heap T} {hd : Ptr} {xs ys : List Nat} {c : Nat} (v : T)
    (hwf : dll h none hd (xs ++ c :: ys)) :
    ∃ cur h1, read h c = some cur ∧ cur.pNext = ys.head? ∧
      insert h (some c) v true = some (h1, h.length) ∧
      h1.length = h.length + 1 ∧
      (∀ b, read h1 b =
        if b = h.length then some ⟨v, cur.pNext, some c⟩
        else if b = c then some { cur with pNext := some h.length }
        else if cur.pNext = some b then
          (read h b).map fun n => { n with pPrev := some h.length }
        else read h b) ∧
      dll h1 none hd (xs ++ c :: h.length :: ys) := by
  obtain ⟨cur, hc, hcprev, hxs, hys, hcx, hcy, hxy, hlt⟩ := dll_split hwf
  have hnext : cur.pNext = ys.head? := by
    cases ys with
    | nil => simpa [dll, dllTo] using hys
    | cons y ys1 => exact (dllTo_cons.mp hys).1
  have hq : ∀ q, cur.pNext = some q → q ≠ c ∧ ∃ qn, read h q = some qn := by
    intro q hq
    rw [hnext] at hq
    have hqy : q ∈ ys := List.mem_of_mem_head? hq
    exact ⟨fun e => hcy (e ▸ hqy), lsegTo_live (dllTo_lsegTo hys) q hqy⟩
  obtain ⟨h1, hins, hlen, hread⟩ := insert_after_spec v hc hq
  refine ⟨cur, h1, hc, hnext, hins, hlen, hread, ?_⟩
  have hce : c ≠ h.length := Nat.ne_of_lt (hlt c (by simp))
  have hframe_xs : ∀ b ∈ xs, read h1 b = read h b := by
    intro b hb
    have hbe : b ≠ h.length := Nat.ne_of_lt (hlt b (by simp [hb]))
    have hbc : b ≠ c := fun e => hcx (e ▸ hb)
    have hbp : cur.pNext ≠ some b := by
      rw [hnext]
      intro hl
      exact hxy b hb (List.mem_of_mem_head? hl)
    rw [hread b]; simp [hbe, hbc, hbp]
  have hrc : read h1 c = some { cur with pNext := some h.length } := by
    rw [hread c]; simp [hce]
  have hre : read h1 h.length = some ⟨v, cur.pNext, some c⟩ := by
    rw [hread h.length]; simp
  refine dllTo_append.mpr ⟨some c, dllTo_frame hframe_xs hxs, ?_⟩
  refine dllTo_cons.mpr ⟨rfl, _, hrc, hcprev, ?_⟩
  refine dllTo_cons.mpr ⟨rfl, _, hre, rfl, ?_⟩
  cases ys with
  | nil => simpa [dll, dllTo] using hys
  | cons y ys1 =>
    obtain ⟨hy, yn, hyn, hyprev, hrest⟩ := dllTo_cons.mp hys
    have hye : y ≠ h.length := Nat.ne_of_lt (hlt y (by simp))
    have hyc : y ≠ c := fun e => hcy (by simp [e])
    have hnd : (y :: ys1).Nodup := dll_nodup hys
    have hyy : y ∉ ys1 := (List.nodup_cons.mp hnd).1
    have hry : read h1 y = some { yn with pPrev := some h.length } := by
      rw [hread y]; simp [hye, hyc, hy, hyn]
    have hframe_ys : ∀ b ∈ ys1, read h1 b = read h b := by
      intro b hb
      have hbe : b ≠ h.length := Nat.ne_of_lt (hlt b (by simp [hb]))
      have hbc : b ≠ c := fun e => hcy (by simp [← e, hb])
      have hby : y ≠ b := fun e => hyy (e ▸ hb)
      rw [hread b]; simp [hbe, hbc, hy, hby]
    exact dllTo_cons.mpr ⟨hy, _, hry, rfl, dllTo_frame hframe_ys hrest⟩

/-- Removing a node of a well-formed chain: the resulting store and chain. -/
theorem remove_dll {h : Heap T} {hd : Ptr} {xs ys : List Nat} {r : Nat}
    (hwf : dll h none hd (xs ++ r :: ys)) :
    ∃ cur h1, read h r = some cur ∧ cur.pPrev = lastPtr none xs ∧
      cur.pNext = ys.head? ∧
      remove h (some r) =
        some (h1, match cur.pPrev with
                  | some q => some q
                  | none => cur.pNext) ∧
      h1.length = h.length ∧
      (∀ b, read h1 b =
        if b = r then none
        else (read h b).map fun m =>
          { m with pNext := if cur.pPrev = some b then cur.pNext else m.pNext,
                   pPrev := if cur.pNext = some b then cur.pPrev else m.pPrev }) ∧
      dll h1 none (if xs = [] then cur.pNext else hd) (xs ++ ys) := by
  obtain ⟨cur, hc, hcprev, hxs, hys, hrx, hry, hxy, hlt⟩ := dll_split hwf
  have hnext : cur.pNext = ys.head? := by
    cases ys with
    | nil => simpa [dll, dllTo] using hys
    | cons y ys1 => exact (dllTo_cons.mp hys).1
  have hp : ∀ q, cur.pPrev = some q → q ≠ r ∧ ∃ qn, read h q = some qn := by
    intro q hq
    rw [hcprev] at hq
    obtain ⟨xs1, rfl⟩ := lastPtr_eq_some hq
    have hqx : q ∈ xs1 ++ [q] := by simp
    exact ⟨fun e => hrx (e ▸ hqx), lsegTo_live (dllTo_lsegTo hxs) q hqx⟩
  have hx : ∀ q, cur.pNext = some q → q ≠ r ∧ ∃ qn, read h q = some qn := by
    intro q hq
    rw [hnext] at hq
    have hqy : q ∈ ys := List.mem_of_mem_head? hq
    exact ⟨fun e => hry (e ▸ hqy), lsegTo_live (dllTo_lsegTo hys) q hqy⟩
  obtain ⟨h1, hrem, hlen, hread⟩ := remove_spec hc hp hx
  refine ⟨cur, h1, hc, hcprev, hnext, hrem, hlen, hread, ?_⟩
  -- nodes that are neither `r` nor one of its neighbours are untouched
  have hsame : ∀ b, b ≠ r → cur.pPrev ≠ some b → cur.pNext ≠ some b →
      read h1 b = read h b := by
    intro b hbr hbp hbn
    rw [hread b]
    simp only [hbr, hbp, hbn, if_false]
    cases read h b <;> rfl
  have hnd := dll_nodup hwf
  -- the part after `r`
  have htail : ∀ pv : Ptr, cur.pPrev = pv → dllTo h1 pv cur.pNext ys none := by
    intro pv hpv
    cases ys with
    | nil => simpa [dll, dllTo] using hys
    | cons y ys1 =>
      obtain ⟨hy, yn, hyn, hyprev, hrest⟩ := dllTo_cons.mp hys
      have hyr : y ≠ r := fun e => hry (by simp [e])
      have hyx : y ∉ xs := fun hm => hxy y hm (by simp)
      have hyy : y ∉ ys1 := (List.nodup_cons.mp (dll_nodup hys)).1
      have hpy : cur.pPrev ≠ some y := by
        rw [hcprev]
        intro hl
        obtain ⟨xs1, rfl⟩ := lastPtr_eq_some hl
        exact hyx (by simp)
      have hr1 : read h1 y = some { yn with pPrev := cur.pPrev } := by
        rw [hread y]; simp [hyr, hyn, hpy, hy]
      have hframe : ∀ b ∈ ys1, read h1 b = read h b := by
        intro b hb
        refine hsame b (fun e => hry (by simp [← e, hb])) ?_ ?_
        · rw [hcprev]
          intro hl
          obtain ⟨xs1, rfl⟩ := lastPtr_eq_some hl
          exact hxy b (by simp) (by simp [hb])
        · rw [hy]
          intro e
          cases e
          exact hyy hb
      exact dllTo_cons.mpr ⟨hy, _, hr1, hpv, dllTo_frame hframe hrest⟩
  rcases nil_or_snoc xs with rfl | ⟨xs1, q, rfl⟩
  · simp only [if_true, List.nil_append]
    exact htail none (by rw [hcprev]; rfl)
  · have hne : xs1 ++ [q] ≠ [] := by simp
    simp only [hne, if_false]
    obtain ⟨hxs1, qn, hqn, hqprev, hqnext⟩ := dllTo_snoc.mp hxs
    have hcp : cur.pPrev = some q := by rw [hcprev, lastPtr_append_singleton]
    have hqr : q ≠ r := fun e => hrx (by simp [e])
    have hqx1 : q ∉ xs1 := by
      have h1 : (xs1 ++ [q]).Nodup := (List.nodup_append.mp hnd).1
      have h2 := (List.nodup_append.mp h1).2.2
      intro hmem
      exact h2 hmem (List.mem_singleton_self q)
    have hqy : q ∉ ys := fun hm => hxy q (by simp) hm
    have hnq : cur.pNext ≠ some q := by
      rw [hnext]
      intro hl
      exact hqy (List.mem_of_mem_head? hl)
    have hrq : read h1 q = some { qn with pNext := cur.pNext } := by
      rw [hread q]; simp [hqr, hqn, hcp, hnq]
    have hframe_xs : ∀ b ∈ xs1, read h1 b = read h b := by
      intro b hb
      refine hsame b (fun e => hrx (by simp [← e, hb])) ?_ ?_
      · rw [hcp]
        intro e
        cases e
        exact hqx1 hb
      · rw [hnext]
        intro hl
        exact hxy b (by simp [hb]) (List.mem_of_mem_head? hl)
    refine dllTo_append.mpr ⟨cur.pNext, dllTo_snoc.mpr
      ⟨dllTo_frame hframe_xs hxs1, _, hrq, hqprev, rfl⟩, ?_⟩
    rw [lastPtr_append_singleton]
    exact htail (some q) hcp

/-! ## Counting destroyed nodes -/

theorem read_cons_succ (c : Option (Node T)) (h : Heap T) (a : Nat) :
    read (c :: h) (a + 1) = read h a := by
  simp [read]

theorem read_cons_zero (c : Option (Node T)) (h : Heap T) : read (c :: h) 0 = c := by
  simp [read]

theorem deadCount_cons (c : Option (Node T)) (h : Heap T) :
    deadCount (c :: h) = deadCount h + (if c.isNone then 1 else 0) := by
  simp [deadCount, List.countP_cons]

theorem deadCount_set_some {h : Heap T} :
    ∀ {a : Nat} {n : Node T} (x : Node T), read h a = some n →
      deadCount (h.set a (some x)) = deadCount h := by
  induction h with
  | nil => intro a n x hr; simp [read] at hr
  | cons c h ih =>
    intro a n x hr
    cases a with
    | zero =>
      rw [read_cons_zero] at hr
      subst hr
      simp [deadCount_cons]
    | succ a =>
      rw [read_cons_succ] at hr
      simp only [List.set_cons_succ, deadCount_cons, ih x hr]

theorem deadCount_set_none {h : Heap T} :
    ∀ {a : Nat} {n : Node T}, read h a = some n →
      deadCount (h.set a none) = deadCount h + 1 := by
  induction h with
  | nil => intro a n hr; simp [read] at hr
  | cons c h ih =>
    intro a n hr
    cases a with
    | zero =>
      rw [read_cons_zero] at hr
      subst hr
      simp [deadCount_cons]
    | succ a =>
      rw [read_cons_succ] at hr
      simp only [List.set_cons_succ, deadCount_cons, ih hr]
      omega

theorem deadCount_append_some (h : Heap T) (x : Node T) :
    deadCount (h ++ [some x]) = deadCount h := by
  simp [deadCount]

theorem store_counts {h h1 : Heap T} {a : Nat} {f : Node T → Node T}
    (hs : store h a f = some h1) :
    h1.length = h.length ∧ deadCount h1 = deadCount h := by
  obtain ⟨n, hr, rfl⟩ := store_inv hs
  exact ⟨by simp, deadCount_set_some _ hr⟩

/-- Any call of `insert` that returns has allocated one node and destroyed
none. -/
theorem insert_counts {h : Heap T} {p : Ptr} {t : T} {after : Bool} {r : Heap T × Nat}
    (hi : insert h p t after = some r) :
    r.1.length = h.length + 1 ∧ deadCount r.1 = deadCount h := by
  obtain ⟨h1, e⟩ := r
  show h1.length = h.length + 1 ∧ deadCount h1 = deadCount h
  have h0 : (h ++ [some (Node.mk t none none)]).length = h.length + 1 ∧
      deadCount (h ++ [some (Node.mk t none none)]) = deadCount h :=
    ⟨by simp, deadCount_append_some h _⟩
  cases p with
  | none =>
    simp only [insert, Option.some.injEq, Prod.mk.injEq] at hi
    rw [← hi.1]; exact h0
  | some c =>
    unfold insert at hi
    simp only [setNext, setPrev] at hi
    cases after <;>
      simp only [Bool.false_eq_true, if_true, if_false, Option.bind_eq_some] at hi <;>
      obtain ⟨cur, _, hi⟩ := hi <;>
      split at hi <;>
      simp only [Option.bind_eq_some, Option.some.injEq, Prod.mk.injEq] at hi
    all_goals first
      | (obtain ⟨a1, s1, a2, s2, he, _⟩ := hi
         have c1 := store_counts s1
         have c2 := store_counts s2
         rw [← he]
         exact ⟨by omega, by omega⟩)
      | (obtain ⟨a1, s1, a2, s2, a3, s3, ne, _, hi⟩ := hi
         split at hi
         · simp only [Option.bind_eq_some, Option.some.injEq, Prod.mk.injEq] at hi
           obtain ⟨a4, s4, he, _⟩ := hi
           have c1 := store_counts s1
           have c2 := store_counts s2
           have c3 := store_counts s3
           have c4 := store_counts s4
           rw [← he]
           exact ⟨by omega, by omega⟩
         · cases hi)

/-! ## `clear` -/

theorem lseg_head {h : Heap T} {p : Ptr} {as : List Nat} (hl : lseg h p as) :
    p = as.head? := by
  cases as with
  | nil => simpa [lseg, lsegTo] using hl
  | cons a as => exact (lsegTo_cons.mp hl).1

/-- The function `clear` on a forward chain: it returns with the reference
absent, and exactly the nodes of the chain have been destroyed. -/
theorem clear_lseg {as : List Nat} :
    ∀ {h : Heap T} {p : Ptr} {fuel : Nat}, lseg h p as → as.length ≤ fuel →
      ∃ h1, clear fuel h p = some (h1, none) ∧ h1.length = h.length ∧
        deadCount h1 = deadCount h + as.length ∧
        ∀ b, read h1 b = if b ∈ as then none else read h b := by
  induction as with
  | nil =>
    intro h p fuel hl _
    have hp : p = none := by simpa [lseg, lsegTo] using hl
    subst hp
    refine ⟨h, ?_, rfl, rfl, ?_⟩
    · cases fuel <;> simp [clear]
    · intro b; simp
  | cons a as ih =>
    intro h p fuel hl hf
    have hnd := lseg_nodup hl
    obtain ⟨hp, n, hr, hrest⟩ := lsegTo_cons.mp hl
    subst hp
    cases fuel with
    | zero => simp at hf
    | succ fuel =>
      have hf1 : as.length ≤ fuel := by simpa using hf
      have ha : a ∉ as := (List.nodup_cons.mp hnd).1
      have hframe : ∀ b ∈ as, read (h.set a none) b = read h b := by
        intro b hb
        have hba : b ≠ a := fun e => ha (e ▸ hb)
        rw [read_set]; simp [hba]
      have hrest1 : lseg (h.set a none) n.pNext as := lsegTo_frame hframe hrest
      obtain ⟨h1, hcl, hlen, hdead, hread⟩ := ih hrest1 hf1
      refine ⟨h1, ?_, ?_, ?_, ?_⟩
      · simp [clear, hr, free, hcl]
      · simp [hlen]
      · rw [hdead, deadCount_set_none hr, List.length_cons]; omega
      · intro b
        rw [hread b, read_set_live hr]
        by_cases hba : b = a
        · subst hba; simp
        · by_cases hbs : b ∈ as <;> simp [hba, hbs]

/-! ## `copy` -/

/-- The loop of `copy`, started at a tail node `d`: it appends one new node
per source node, in order, and touches no other node than `d`. -/
theorem copyLoop_spec {bs : List Nat} :
    ∀ {h : Heap T} {d : Nat} {dn : Node T} {p : Ptr} {fuel : Nat},
      read h d = some dn → dn.pNext = none → lseg h p bs → d ∉ bs → bs.length ≤ fuel →
      ∃ h1, copyLoop fuel h d p = some h1 ∧ h1.length = h.length + bs.length ∧
        (∀ b, b < h.length → b ≠ d → read h1 b = read h b) ∧
        dll h1 dn.pPrev (some d) (d :: List.range' h.length bs.length) ∧
        valuesAt h1 (d :: List.range' h.length bs.length) = dn.data :: valuesAt h bs := by
  induction bs with
  | nil =>
    intro h d dn p fuel hd hdn hl _ _
    have hp : p = none := by simpa [lseg, lsegTo] using hl
    subst hp
    refine ⟨h, ?_, rfl, fun _ _ _ => rfl, ?_, ?_⟩
    · cases fuel <;> simp [copyLoop]
    · exact dllTo_cons.mpr ⟨rfl, dn, hd, rfl, by simp [List.range', dllTo, hdn]⟩
    · simp [valuesAt, hd]
  | cons s bs ih =>
    intro h d dn p fuel hd hdn hl hdb hf
    have hnd := lseg_nodup hl
    have hlt := lsegTo_lt hl
    obtain ⟨hp, sn, hs, hrest⟩ := lsegTo_cons.mp hl
    subst hp
    cases fuel with
    | zero => simp at hf
    | succ fuel =>
      have hf1 : bs.length ≤ fuel := by simpa using hf
      have hq : ∀ q, dn.pNext = some q → q ≠ d ∧ ∃ qn, read h q = some qn := by
        intro q hq; rw [hdn] at hq; cases hq
      obtain ⟨h0, hins, hlen0, hread0⟩ := insert_after_spec sn.data hd hq
      have hds : d ≠ s := fun e => hdb (by simp [e])
      have hde : d ≠ h.length := Nat.ne_of_lt (read_lt hd)
      have hold : ∀ b, b < h.length → b ≠ d → read h0 b = read h b := by
        intro b hb hbd
        rw [hread0 b]; simp [Nat.ne_of_lt hb, hbd, hdn]
      have hs0 : read h0 s = some sn := by
        rw [hold s (hlt s (by simp)) (fun e => hds e.symm), hs]
      have he0 : read h0 h.length = some ⟨sn.data, none, some d⟩ := by
        rw [hread0 h.length]; simp [hdn]
      have hd0 : read h0 d = some { dn with pNext := some h.length } := by
        rw [hread0 d]; simp [hde]
      have hframe : ∀ b ∈ bs, read h0 b = read h b := fun b hb =>
        hold b (hlt b (by simp [hb])) (fun e => hdb (by simp [← e, hb]))
      have hrest0 : lseg h0 sn.pNext bs := lsegTo_frame hframe hrest
      have hebs : h.length ∉ bs := fun hm =>
        Nat.lt_irrefl _ (hlt h.length (by simp [hm]))
      obtain ⟨h1, hloop, hlen1, hread1, hdll1, hval1⟩ :=
        ih he0 rfl hrest0 hebs hf1
      refine ⟨h1, ?_, ?_, ?_, ?_, ?_⟩
      · simp [copyLoop, hs, hins, hs0, hloop]
      · rw [hlen1, hlen0]; simp; omega
      · intro b hb hbd
        rw [hread1 b (by omega) (Nat.ne_of_lt hb), hold b hb hbd]
      · have hd1 : read h1 d = some { dn with pNext := some h.length } := by
          rw [hread1 d (by rw [hlen0]; exact Nat.lt_succ_of_lt (read_lt hd)) hde, hd0]
        rw [hlen0] at hdll1
        simp only [List.length_cons, List.range'_succ]
        exact dllTo_cons.mpr ⟨rfl, _, hd1, rfl, hdll1⟩
      · have hd1 : read h1 d = some { dn with pNext := some h.length } := by
          rw [hread1 d (by rw [hlen0]; exact Nat.lt_succ_of_lt (read_lt hd)) hde, hd0]
        rw [hlen0] at hval1
        simp only [List.length_cons, List.range'_succ]
        rw [valuesAt_cons hd1, hval1, valuesAt_frame hframe, valuesAt_cons hs]

/-- The function `copy` on a forward chain: the new chain is made of fresh
nodes, is well formed, and carries the values of the source in order; no
existing node is modified. -/
theorem copy_spec {h : Heap T} {pSource : Ptr} {bs : List Nat} {fuel : Nat}
    (hl : lseg h pSource bs) (hf : bs.length ≤ fuel + 1) :
    ∃ h1, copy fuel h pSource =
        some (h1, (List.range' h.length bs.length).head?) ∧
      h1.length = h.length + bs.length ∧
      (∀ b, b < h.length → read h1 b = read h b) ∧
      dll h1 none (List.range' h.length bs.length).head? (List.range' h.length bs.length) ∧
      valuesAt h1 (List.range' h.length bs.length) = valuesAt h bs := by
  cases bs with
  | nil =>
    have hp : pSource = none := by simpa [lseg, lsegTo] using hl
    subst hp
    exact ⟨h, by simp [copy], rfl, fun _ _ => rfl, by simp [dll, dllTo], rfl⟩
  | cons s bs =>
    have hlt := lsegTo_lt hl
    obtain ⟨hp, sn, hs, hrest⟩ := lsegTo_cons.mp hl
    subst hp
    have hold : ∀ b, b < h.length →
        read (h ++ [some (Node.mk sn.data none none)]) b = read h b := by
      intro b hb
      rw [read_append]; simp [Nat.ne_of_lt hb]
    have hs0 : read (h ++ [some (Node.mk sn.data none none)]) s = some sn := by
      rw [hold s (hlt s (by simp)), hs]
    have he0 : read (h ++ [some (Node.mk sn.data none none)]) h.length
        = some ⟨sn.data, none, none⟩ := by
      rw [read_append]; simp
    have hframe : ∀ b ∈ bs, read (h ++ [some (Node.mk sn.data none none)]) b = read h b :=
      fun b hb => hold b (hlt b (by simp [hb]))
    have hebs : h.length ∉ bs := fun hm =>
      Nat.lt_irrefl _ (hlt h.length (by simp [hm]))
    have hf1 : bs.length ≤ fuel := by simp at hf; omega
    obtain ⟨h1, hloop, hlen1, hread1, hdll1, hval1⟩ :=
      copyLoop_spec he0 rfl (lsegTo_frame hframe hrest) hebs hf1
    simp only [List.length_append, List.length_singleton] at hlen1 hread1 hdll1 hval1
    refine ⟨h1, ?_, ?_, ?_, ?_, ?_⟩
    · simp [copy, alloc, hs, hs0, hloop, List.range'_succ]
    · rw [hlen1]; simp; omega
    · intro b hb
      rw [hread1 b (by omega) (Nat.ne_of_lt hb), hold b hb]
    · simpa [List.range'_succ] using hdll1
    · simp only [List.length_cons, List.range'_succ]
      rw [hval1, valuesAt_frame hframe, valuesAt_cons hs]

/-! ## `assign` -/

/-- With a destination head already set, the growing loop of `assign` is the
loop of `copy`. -/
theorem assignGrow_eq_copyLoop (fuel : Nat) :
    ∀ (h : Heap T) (pd d : Nat) (pSrc : Ptr),
      assignGrow fuel h (Ref.var (some pd)) (some d) pSrc =
        (copyLoop fuel h d pSrc).map fun h1 => (h1, Ref.var (some pd)) := by
  induction fuel with
  | zero =>
    intro h pd d pSrc
    cases pSrc <;> simp [assignGrow, copyLoop]
  | succ fuel ih =>
    intro h pd d pSrc
    cases pSrc with
    | none => simp [assignGrow, copyLoop]
    | some s =>
      simp only [assignGrow, copyLoop]
      cases read h s with
      | none => rfl
      | some sn =>
        simp only [Option.some_bind]
        cases insert h (some d) sn.data true with
        | none => rfl
        | some r =>
          simp only [Option.some_bind, loadRef]
          cases read r.1 s with
          | none => rfl
          | some sn1 => simp only [Option.some_bind, ih]

/-- The first loop of `assign`: where it stops and what it has written. -/
theorem assignWalk_spec {as : List Nat} :
    ∀ {bs : List Nat} {h : Heap T} {prev D S : Ptr} (w : Ptr) {fuel : Nat},
      dll h prev D as → lseg h S bs → (∀ a ∈ as, a ∉ bs) →
      min as.length bs.length ≤ fuel →
      ∃ h1, assignWalk fuel h D S w =
          some (h1, (as.drop bs.length).head?, (bs.drop as.length).head?,
            lastPtr w (as.take bs.length)) ∧
        h1.length = h.length ∧
        (∀ b, b ∉ as.take bs.length → read h1 b = read h b) ∧
        (∀ b, (read h1 b).map Node.pNext = (read h b).map Node.pNext) ∧
        (∀ b, (read h1 b).map Node.pPrev = (read h b).map Node.pPrev) ∧
        valuesAt h1 (as.take bs.length) = valuesAt h (bs.take as.length) ∧
        (valuesAt h (as.take bs.length) = valuesAt h (bs.take as.length) → h1 = h) := by
  induction as with
  | nil =>
    intro bs h prev D S w fuel hd hs _ _
    have hD : D = none := by simpa [dll, dllTo] using hd
    subst hD
    refine ⟨h, ?_, rfl, fun _ _ => rfl, fun _ => rfl, fun _ => rfl, ?_, fun _ => rfl⟩
    · have := lseg_head hs
      cases fuel <;> simp [assignWalk, this, lastPtr]
    · simp [valuesAt]
  | cons a as ih =>
    intro bs h prev D S w fuel hd hs hdisj hf
    obtain ⟨hD, an, ha, haprev, harest⟩ := dllTo_cons.mp hd
    subst hD
    cases bs with
    | nil =>
      have hS : S = none := by simpa [lseg, lsegTo] using hs
      subst hS
      refine ⟨h, ?_, rfl, fun _ _ => rfl, fun _ => rfl, fun _ => rfl, ?_, fun _ => rfl⟩
      · cases fuel <;> simp [assignWalk, lastPtr]
      · simp [valuesAt]
    | cons s bs =>
      obtain ⟨hS, sn, hsn, hsrest⟩ := lsegTo_cons.mp hs
      subst hS
      cases fuel with
      | zero => simp at hf
      | succ fuel =>
        have hf1 : min as.length bs.length ≤ fuel := by
          simp only [List.length_cons] at hf; omega
        have hnd := dll_nodup hd
        have haas : a ∉ as := (List.nodup_cons.mp hnd).1
        have has : a ≠ s := fun e => hdisj a (by simp) (by simp [e])
        have habs : a ∉ bs := fun hm => hdisj a (by simp) (by simp [hm])
        have hread0 : ∀ b, read (h.set a (some { an with data := sn.data })) b =
            if b = a then some { an with data := sn.data } else read h b :=
          fun b => read_set_live ha _ b
        have hfa : ∀ b ∈ as, read (h.set a (some { an with data := sn.data })) b = read h b := by
          intro b hb
          have hba : b ≠ a := fun e => haas (e ▸ hb)
          rw [hread0 b]; simp [hba]
        have hfb : ∀ b ∈ bs, read (h.set a (some { an with data := sn.data })) b = read h b := by
          intro b hb
          have hba : b ≠ a := fun e => habs (e ▸ hb)
          rw [hread0 b]; simp [hba]
        have hdisj1 : ∀ x ∈ as, x ∉ bs := fun x hx hm =>
          hdisj x (by simp [hx]) (by simp [hm])
        obtain ⟨h1, hw, hlen, hout, hnx, hpv, hval, hfix⟩ :=
          ih (some a)
            (dllTo_frame hfa harest) (lsegTo_frame hfb hsrest) hdisj1 hf1
        have hs0 : read (h.set a (some { an with data := sn.data })) s = some sn := by
          have hsa : s ≠ a := fun e => has e.symm
          rw [hread0 s]; simp [hsa, hsn]
        have hmap : ∀ (f : Node T → Ptr), (∀ n : Node T, ∀ t : T, f { n with data := t } = f n) →
            ∀ b, (read (h.set a (some { an with data := sn.data })) b).map f
              = (read h b).map f := by
          intro f hfn b
          rw [hread0 b]
          by_cases hba : b = a
          · subst hba; simp [ha]; exact hfn an sn.data
          · simp [hba]
        refine ⟨h1, ?_, ?_, ?_, ?_, ?_, ?_, ?_⟩
        · have ha0 : read (h.set a (some { an with data := sn.data })) a
              = some { an with data := sn.data } := by
            rw [hread0 a]; simp
          simp [assignWalk, hsn, setData, store, ha, ha0, hs0, hw, lastPtr_cons]
        · simpa using hlen
        · intro b hb
          simp only [List.length_cons, List.take_succ_cons, List.mem_cons, not_or] at hb
          rw [hout b hb.2, hread0 b]; simp [hb.1]
        · intro b
          rw [hnx b]
          exact hmap Node.pNext (fun _ _ => rfl) b
        · intro b
          rw [hpv b]
          exact hmap Node.pPrev (fun _ _ => rfl) b
        · simp only [List.length_cons, List.take_succ_cons]
          have hat : a ∉ as.take bs.length := fun hm => haas (List.mem_of_mem_take hm)
          have ha1 : read h1 a = some { an with data := sn.data } := by
            rw [hout a hat, hread0 a]; simp
          rw [valuesAt_cons ha1, valuesAt_cons hsn, hval]
          congr 1
          exact valuesAt_frame fun b hb => hfb b (List.mem_of_mem_take hb)
        · intro heq
          simp only [List.length_cons, List.take_succ_cons] at heq
          rw [valuesAt_cons ha, valuesAt_cons hsn] at heq
          have hdat : an.data = sn.data := (List.cons.inj heq).1
          have hset : h.set a (some { an with data := sn.data }) = h := by
            have : ({ an with data := sn.data } : Node T) = an := by
              rw [← hdat]
            rw [this]
            exact set_self_of_read ha
          rw [hset] at hfix
          exact hfix (List.cons.inj heq).2

theorem copyLoop_counts (fuel : Nat) :
    ∀ {h h1 : Heap T} {d : Nat} {p : Ptr}, copyLoop fuel h d p = some h1 →
      deadCount h1 = deadCount h := by
  induction fuel with
  | zero =>
    intro h h1 d p hc
    cases p with
    | none => simp [copyLoop] at hc; rw [hc]
    | some s => simp [copyLoop] at hc
  | succ fuel ih =>
    intro h h1 d p hc
    cases p with
    | none => simp [copyLoop] at hc; rw [hc]
    | some s =>
      simp only [copyLoop, Option.bind_eq_some] at hc
      obtain ⟨sn, _, r, hins, sn1, _, hrec⟩ := hc
      have c1 := (insert_counts hins).2
      rw [ih hrec, c1]

theorem assignWalk_counts (fuel : Nat) :
    ∀ {h h1 : Heap T} {D S pdp a b c : Ptr},
      assignWalk fuel h D S pdp = some (h1, a, b, c) → deadCount h1 = deadCount h := by
  induction fuel with
  | zero =>
    intro h h1 D S pdp a b c hw
    cases D <;> cases S <;> simp [assignWalk] at hw <;> rw [hw.1]
  | succ fuel ih =>
    intro h h1 D S pdp a b c hw
    cases D with
    | none => simp [assignWalk] at hw; rw [hw.1]
    | some d =>
      cases S with
      | none => simp [assignWalk] at hw; rw [hw.1]
      | some s =>
        simp only [assignWalk, setData, Option.bind_eq_some] at hw
        obtain ⟨sn, _, h0, hst, dn, _, sn1, _, hrec⟩ := hw
        rw [ih hrec, (store_counts hst).2]

theorem assignGrow_null (fuel : Nat) (h : Heap T) (s : Nat) :
    assignGrow (fuel + 1) h (Ref.var none) none (some s) =
      (copy fuel h (some s)).map fun r => (r.1, Ref.var r.2) := by
  simp only [assignGrow, copy, insert, alloc, loadRef, storeRef, Option.some_bind]
  cases read h s with
  | none => rfl
  | some sn =>
    simp only [Option.some_bind]
    cases read (h ++ [some (Node.mk sn.data none none)]) s with
    | none => rfl
    | some sn1 =>
      simp only [Option.some_bind, assignGrow_eq_copyLoop]
      cases copyLoop fuel (h ++ [some (Node.mk sn.data none none)]) h.length sn1.pNext <;> rfl

/-- The function `assign` when both chains have the same length. -/
theorem assign_same {h : Heap T} {D S : Ptr} {as bs : List Nat} {fuel : Nat}
    (hd : dll h none D as) (hs : lseg h S bs) (hdisj : ∀ a ∈ as, a ∉ bs)
    (hfa : as.length ≤ fuel) (hmn : as.length = bs.length) :
    ∃ h1 D1, assign fuel h (Ref.var D) S = some (h1, Ref.var D1) ∧
      AssignPost h as bs h1 D1 := by
  have hmin : min as.length bs.length ≤ fuel := by omega
  obtain ⟨h1, hw, hlen1, hout, hnx, hpv, hval, hfix⟩ :=
    assignWalk_spec D hd hs hdisj hmin
  have hd1 : dll h1 none D as := dllTo_congr (fun a _ => hnx a) (fun a _ => hpv a) hd
  have hX : as.drop bs.length = [] := List.drop_eq_nil_of_le (by omega)
  have hY : bs.drop as.length = [] := List.drop_eq_nil_of_le (by omega)
  have hta : as.take bs.length = as := List.take_of_length_le (by omega)
  have htb : bs.take as.length = bs := List.take_of_length_le (by omega)
  have hnodes : assignNodes h as bs = as := by
    simp [assignNodes, hta, hmn]
  refine ⟨h1, D, ?_, ?_⟩
  · simp [assign, loadRef, hw, hX, hY]
  · rw [hta, htb] at hval hfix
    rw [hta] at hout
    refine ⟨?_, ?_, ?_, ?_, ?_, ?_, ?_, ?_⟩
    · rw [hnodes]; exact lseg_head (dll_lseg hd)
    · rw [hlen1, hmn]; simp
    · rw [assignWalk_counts fuel hw, hmn]; simp
    · rw [hnodes]; exact hd1
    · rw [hnodes]; exact hval
    · rw [hX]; intro b hb; simp at hb
    · intro b _ hb; exact hout b hb
    · intro _ hv; exact hfix hv

/-- The function `assign` when the destination is the longer chain. -/
theorem assign_shrink {h : Heap T} {D S : Ptr} {as bs : List Nat} {fuel : Nat}
    (hd : dll h none D as) (hs : lseg h S bs) (hdisj : ∀ a ∈ as, a ∉ bs)
    (hfa : as.length ≤ fuel) (hmn : bs.length < as.length) :
    ∃ h1 D1, assign fuel h (Ref.var D) S = some (h1, Ref.var D1) ∧
      AssignPost h as bs h1 D1 := by
  have hmin : min as.length bs.length ≤ fuel := by omega
  obtain ⟨h1, hw, hlen1, hout, hnx, hpv, hval, hfix⟩ :=
    assignWalk_spec D hd hs hdisj hmin
  have hd1 : dll h1 none D as := dllTo_congr (fun a _ => hnx a) (fun a _ => hpv a) hd
  have hY : bs.drop as.length = [] := List.drop_eq_nil_of_le (by omega)
  have htb : bs.take as.length = bs := List.take_of_length_le (by omega)
  have hnodes : assignNodes h as bs = as.take bs.length := by
    have : bs.length - as.length = 0 := by omega
    simp [assignNodes, this]
  have hdead1 := assignWalk_counts fuel hw
  rw [htb] at hval
  cases hdr : as.drop bs.length with
  | nil =>
    have := congrArg List.length hdr
    simp at this; omega
  | cons d rest =>
    have hsplit : as = as.take bs.length ++ d :: rest := by
      rw [← hdr, List.take_append_drop]
    have hd1s : dll h1 none D (as.take bs.length ++ d :: rest) := by
      rw [← hsplit]; exact hd1
    obtain ⟨dn, hdn, hdprev, hxs, hys, hdx, hdy, hxy, hlt⟩ := dll_split hd1s
    have hrestlen : (d :: rest).length ≤ fuel := by
      rw [← hdr]; simp; omega
    have hchain : lseg h1 (some d) (d :: rest) :=
      lsegTo_cons.mpr ⟨rfl, dn, hdn, dllTo_lsegTo hys⟩
    rcases nil_or_snoc (as.take bs.length) with hnil | ⟨xs, q, hsn⟩
    · -- the source is empty: the whole destination goes
      rw [hnil] at hdprev hval hnodes
      obtain ⟨h3, hcl, hlen3, hdead3, hread3⟩ :=
        clear_lseg hchain hrestlen
      have hbs : bs = [] := by
        have := congrArg List.length hnil
        simp at this
        rcases this with e | e
        · exact e
        · rw [e] at hmn; simp at hmn
      refine ⟨h3, none, ?_, ?_⟩
      · simp [assign, loadRef, storeRef, hw, hY, hdr, hdn, hdprev, lastPtr, hcl]
      · subst hbs
        have hall : as = d :: rest := by simpa using hdr
        refine ⟨?_, ?_, ?_, ?_, ?_, ?_, ?_, ?_⟩
        · rw [hnodes]; rfl
        · rw [hlen3, hlen1]; simp
        · rw [hdead3, hdead1, hall]; simp
        · rw [hnodes]; simp [dll, dllTo]
        · rw [hnodes]; rfl
        · intro b hb
          rw [hdr] at hb
          rw [hread3 b]; simp only [hb, if_true]
        · intro b _ hb
          rw [hall] at hb
          rw [hread3 b]; simp only [hb, if_false]
          exact hout b (by simp)
        · intro e; simp [hall] at e
    · -- the destination keeps the nodes matched with the source
      rw [hsn] at hdprev hval hnodes hxs hdx hxy hout
      rw [lastPtr_append_singleton] at hdprev
      obtain ⟨hxs1, qn, hqn, hqprev, hqnext⟩ := dllTo_snoc.mp hxs
      have hqd : q ≠ d := fun e => hdx (by simp [e])
      have hqrest : q ∉ d :: rest := by
        intro hm
        rcases List.mem_cons.mp hm with e | hm1
        · exact hqd e
        · exact hxy q (by simp) hm1
      have hread2 : ∀ b, read (h1.set q (some { qn with pNext := none })) b
          = if b = q then some { qn with pNext := none } else read h1 b :=
        fun b => read_set_live hqn _ b
      have hchain2 : lseg (h1.set q (some { qn with pNext := none })) (some d) (d :: rest) := by
        refine lsegTo_frame ?_ hchain
        intro b hb
        have hbq : b ≠ q := fun e => hqrest (e ▸ hb)
        rw [hread2 b]; simp [hbq]
      obtain ⟨h3, hcl, hlen3, hdead3, hread3⟩ :=
        clear_lseg hchain2 hrestlen
      have hnd := dll_nodup hd1s
      rw [hsn] at hnd
      have hqxs : q ∉ xs := by
        have h1 : (xs ++ [q]).Nodup := (List.nodup_append.mp hnd).1
        have h2 := (List.nodup_append.mp h1).2.2
        intro hmem
        exact h2 hmem (List.mem_singleton_self q)
      have hkeep : ∀ b ∈ xs ++ [q], b ∉ d :: rest := by
        intro b hb hm
        rcases List.mem_cons.mp hm with e | hm1
        · exact hdx (e ▸ hb)
        · exact hxy b hb hm1
      have hDsome : ∃ pd, D = some pd := by
        have := lseg_head (dll_lseg hd1s)
        rw [hsn] at this
        cases xs <;> exact ⟨_, this⟩
      obtain ⟨pd, hpd⟩ := hDsome
      refine ⟨h3, D, ?_, ?_⟩
      · simp [assign, loadRef, hw, hY, hdr, hdn, hdprev, setNext, store, hqn, hcl]
      · refine ⟨?_, ?_, ?_, ?_, ?_, ?_, ?_, ?_⟩
        · rw [hnodes]
          have := lseg_head (dll_lseg hd1s)
          rw [hsn] at this
          rw [this]
          cases xs <;> rfl
        · rw [hlen3]; simp [hlen1]; omega
        · rw [hdead3, deadCount_set_some _ hqn, hdead1]
          have : (d :: rest).length = as.length - bs.length := by
            rw [← hdr]; simp
          rw [this]
        · rw [hnodes]
          have hframe : ∀ b ∈ xs, read h3 b = read h1 b := by
            intro b hb
            have hbq : b ≠ q := fun e => hqxs (e ▸ hb)
            have hbr : b ∉ d :: rest := hkeep b (by simp [hb])
            rw [hread3 b, hread2 b]; simp [hbq, hbr]
          have hq3 : read h3 q = some { qn with pNext := none } := by
            rw [hread3 q, hread2 q]; simp [hqrest]
          exact dllTo_snoc.mpr ⟨dllTo_frame hframe hxs1, _, hq3, hqprev, rfl⟩
        · rw [hnodes, ← hval]
          apply valuesAt_congr
          intro b hb
          have hbr : b ∉ d :: rest := hkeep b hb
          rw [hread3 b, hread2 b]
          by_cases hbq : b = q
          · subst hbq; simp [hbr, hqn]
          · simp [hbr, hbq]
        · intro b hb
          rw [hdr] at hb
          rw [hread3 b]; simp only [hb, if_true]
        · intro b _ hb
          have hbr : b ∉ d :: rest := by
            intro hm
            apply hb
            rw [hsplit]
            exact List.mem_append_right _ hm
          have hbq : b ≠ q := by
            intro e
            apply hb
            rw [hsplit, hsn, e]
            simp
          have hbt : b ∉ xs ++ [q] := by
            intro hm
            apply hb
            rw [hsplit, hsn]
            exact List.mem_append_left _ hm
          rw [hread3 b, hread2 b]; simp only [hbr, hbq, if_false]
          exact hout b hbt
        · intro e; omega

/-- The function `assign` when the source is the longer chain. -/
theorem assign_grow {h : Heap T} {D S : Ptr} {as bs : List Nat} {fuel : Nat}
    (hd : dll h none D as) (hs : lseg h S bs) (hdisj : ∀ a ∈ as, a ∉ bs)
    (hfb : bs.length ≤ fuel) (hmn : as.length < bs.length) :
    ∃ h1 D1, assign fuel h (Ref.var D) S = some (h1, Ref.var D1) ∧
      AssignPost h as bs h1 D1 := by
  have hmin : min as.length bs.length ≤ fuel := by omega
  obtain ⟨h1, hw, hlen1, hout, hnx, hpv, hval, hfix⟩ :=
    assignWalk_spec D hd hs hdisj hmin
  have hd1 : dll h1 none D as := dllTo_congr (fun a _ => hnx a) (fun a _ => hpv a) hd
  have hs1 : lseg h1 S bs := lsegTo_congr (fun a _ => hnx a) hs
  have hX : as.drop bs.length = [] := List.drop_eq_nil_of_le (by omega)
  have hta : as.take bs.length = as := List.take_of_length_le (by omega)
  have hnodes : assignNodes h as bs = as ++ List.range' h.length (bs.length - as.length) := by
    simp [assignNodes, hta]
  have hdead1 := assignWalk_counts fuel hw
  have hlts := lsegTo_lt hs
  rw [hta] at hval hout hw
  have hsrc : ∀ b ∈ bs, read h1 b = read h b := fun b hb =>
    hout b (fun hm => hdisj b hm hb)
  cases hdr : bs.drop as.length with
  | nil =>
    have := congrArg List.length hdr
    simp at this; omega
  | cons s rest =>
    have hsplit : bs = bs.take as.length ++ s :: rest := by
      rw [← hdr, List.take_append_drop]
    have hrestlen : (s :: rest).length = bs.length - as.length := by
      rw [← hdr]; simp
    have hchain : lseg h1 (some s) (s :: rest) := by
      rw [hsplit] at hs1
      obtain ⟨mid, _, h2⟩ := lsegTo_append.mp hs1
      have hm := (lsegTo_cons.mp h2).1
      rw [hm] at h2
      exact h2
    have hsub : ∀ b ∈ s :: rest, b ∈ bs := by
      intro b hb
      rw [hsplit]
      exact List.mem_append_right _ hb
    have hvsplit : valuesAt h bs
        = valuesAt h (bs.take as.length) ++ valuesAt h1 (s :: rest) := by
      rw [valuesAt_frame (fun b hb => hsrc b (hsub b hb)), ← valuesAt_append, ← hsplit]
    rcases nil_or_snoc as with hnil | ⟨xs, d, hsn⟩
    · -- the destination is empty: it is built from scratch
      subst hnil
      have hD : D = none := by simpa [dll, dllTo] using hd
      subst hD
      cases fuel with
      | zero => omega
      | succ fuel =>
        have hfc : (s :: rest).length ≤ fuel + 1 := by rw [hrestlen]; simp; omega
        obtain ⟨h2, hcp, hlen2, hread2, hdll2, hval2⟩ := copy_spec hchain hfc
        rw [hrestlen, hlen1] at hcp hlen2 hdll2 hval2
        rw [hlen1] at hread2
        refine ⟨h2, (List.range' h.length (bs.length - ([] : List Nat).length)).head?,
          ?_, ?_⟩
        · simp only [assign, loadRef, Option.some_bind, hw, hdr, List.head?_cons,
            lastPtr_nil]
          rw [assignGrow_null, hcp]
          rfl
        · refine ⟨?_, ?_, ?_, ?_, ?_, ?_, ?_, ?_⟩
          · rw [hnodes]; simp
          · exact hlen2
          · have hdead2 : deadCount h2 = deadCount h1 := by
              have hcp1 := hcp
              simp only [copy, alloc, Option.bind_eq_some] at hcp1
              obtain ⟨sn, _, sn1, _, h3, hl3, he⟩ := hcp1
              simp only [Option.some.injEq, Prod.mk.injEq] at he
              rw [← he.1, copyLoop_counts fuel hl3, deadCount_append_some]
            rw [hdead2, hdead1]; simp
          · rw [hnodes]; simpa using hdll2
          · rw [hnodes, hvsplit]; simpa [valuesAt] using hval2
          · intro b hb; simp at hb
          · intro b hb _
            rw [hread2 b hb]; exact hout b (by simp)
          · intro e; omega
    · -- new nodes are appended after the last destination node
      subst hsn
      obtain ⟨hxs1, dn, hdn, hdprev, hdnext⟩ := dllTo_snoc.mp hd1
      obtain ⟨pd, hpd⟩ : ∃ pd, D = some pd := by
        have := lseg_head (dll_lseg hd1)
        cases xs <;> exact ⟨_, this⟩
      have hdrest : d ∉ s :: rest := fun hm => hdisj d (by simp) (hsub d hm)
      have hfc : (s :: rest).length ≤ fuel := by rw [hrestlen]; omega
      obtain ⟨h2, hlp, hlen2, hread2, hdll2, hval2⟩ :=
        copyLoop_spec hdn hdnext hchain hdrest hfc
      rw [hrestlen, hlen1] at hlen2 hdll2 hval2
      rw [hlen1] at hread2
      have hnd := dll_nodup hd1
      have hdxs : d ∉ xs := by
        have h2 := (List.nodup_append.mp hnd).2.2
        intro hmem
        exact h2 hmem (List.mem_singleton_self d)
      have hltd := lsegTo_lt (dll_lseg hd)
      have hframe : ∀ b ∈ xs, read h2 b = read h1 b := by
        intro b hb
        exact hread2 b (hltd b (by simp [hb])) (fun e => hdxs (e ▸ hb))
      refine ⟨h2, D, ?_, ?_⟩
      · simp only [assign, loadRef, Option.some_bind, hw, hdr, List.head?_cons,
          lastPtr_append_singleton]
        rw [hpd, assignGrow_eq_copyLoop, hlp]
        rfl
      · refine ⟨?_, ?_, ?_, ?_, ?_, ?_, ?_, ?_⟩
        · rw [hnodes]
          have := lseg_head (dll_lseg hd1)
          rw [this]
          cases xs <;> rfl
        · exact hlen2
        · rw [copyLoop_counts fuel hlp, hdead1]
          have : (xs ++ [d]).length - bs.length = 0 := by omega
          rw [this]; rfl
        · rw [hnodes, List.append_assoc]
          refine dllTo_append.mpr ⟨some d, dllTo_frame hframe hxs1, ?_⟩
          rw [hdprev] at hdll2
          exact hdll2
        · have e1 : valuesAt h2
                (xs ++ [d] ++ List.range' h.length (bs.length - (xs ++ [d]).length))
              = valuesAt h1 xs ++ dn.data :: valuesAt h1 (s :: rest) := by
            rw [List.append_assoc, valuesAt_append, valuesAt_frame hframe,
              List.singleton_append, hval2]
          have e2 : valuesAt h1 (xs ++ [d]) = valuesAt h1 xs ++ [dn.data] := by
            rw [valuesAt_append]; simp [valuesAt, hdn]
          rw [hnodes, e1, hvsplit, ← hval, e2]
          simp
        · rw [hX]; intro b hb; simp at hb
        · intro b hb hbas
          have hbd : b ≠ d := fun e => hbas (by simp [e])
          rw [hread2 b hb hbd]
          exact hout b hbas
        · intro e; omega

/-- The function `assign` on a well-formed destination, held in a pointer
variable, and a disjoint source: it returns, and establishes `AssignPost`. -/
theorem assign_spec {h : Heap T} {D S : Ptr} {as bs : List Nat} {fuel : Nat}
    (hd : dll h none D as) (hs : lseg h S bs) (hdisj : ∀ a ∈ as, a ∉ bs)
    (hfa : as.length ≤ fuel) (hfb : bs.length ≤ fuel) :
    ∃ h1 D1, assign fuel h (Ref.var D) S = some (h1, Ref.var D1) ∧
      AssignPost h as bs h1 D1 := by
  rcases Nat.lt_trichotomy as.length bs.length with hlt | heq | hgt
  · exact assign_grow hd hs hdisj hfb hlt
  · exact assign_same hd hs hdisj hfa heq
  · exact assign_shrink hd hs hdisj hfa hgt

/-! ## Properties of `insert` on a chain -/

theorem dll_live {h : Heap T} {prev p : Ptr} {as : List Nat} (hd : dll h prev p as) :
    ∀ a ∈ as, ∃ n, read h a = some n :=
  lsegTo_live (dllTo_lsegTo hd)

theorem traverse_dll {h : Heap T} {prev p : Ptr} {as : List Nat} {fuel : Nat}
    (hd : dll h prev p as) (hf : as.length ≤ fuel) :
    traverse fuel h p = some (valuesAt h as) :=
  traverse_lseg (dll_lseg hd) hf

/-- C3: inserting `v` before a node `c` of a well-formed chain returns the new
node, which holds `v`; traversal from the head afterwards (the new node when
`c` had no previous neighbour, the old head otherwise) reads the old values
with `v` inserted at the position of `c`. -/
theorem insert_before_chain (h : Heap T) (hd : Ptr) (xs ys : List Nat) (c : Nat) (v : T)
    (fuel : Nat) (hwf : dll h none hd (xs ++ c :: ys))
    (hf : (xs ++ c :: ys).length + 1 ≤ fuel) :
    ∃ h1 e old, insert h (some c) v false = some (h1, e) ∧
      read h e = none ∧ e ∉ xs ++ c :: ys ∧
      (read h1 e).map Node.data = some v ∧
      traverse fuel h hd = some old ∧ old.length = (xs ++ c :: ys).length ∧
      traverse fuel h1
          (match (read h c).bind Node.pPrev with
           | none => some e
           | some _ => hd)
        = some (old.insertIdx xs.length v) := by
  obtain ⟨cur, h1, hc, hcprev, hins, hlen, hread, hdll⟩ := insert_before_dll v hwf
  have hlive := dll_live hwf
  have hlt := lsegTo_lt (dll_lseg hwf)
  have hdata : ∀ b, b ≠ h.length → (read h1 b).map Node.data = (read h b).map Node.data := by
    intro b hb
    rw [hread b]
    by_cases hbc : b = c
    · subst hbc; simp [hb, hc]
    · by_cases hbp : cur.pPrev = some b
      · simp only [hb, hbc, hbp, if_false, if_true, Option.map_map]
        cases read h b <;> rfl
      · simp only [hb, hbc, hbp, if_false]
  have hne : ∀ b ∈ xs ++ c :: ys, b ≠ h.length := fun b hb => Nat.ne_of_lt (hlt b hb)
  have hre : read h1 h.length = some ⟨v, some c, cur.pPrev⟩ := by
    rw [hread h.length]; simp
  have hhead : (match (read h c).bind Node.pPrev with
           | none => some h.length
           | some _ => hd) = if xs = [] then some h.length else hd := by
    rw [hc, Option.some_bind, hcprev]
    rcases nil_or_snoc xs with rfl | ⟨xs1, q, rfl⟩
    · rfl
    · rw [lastPtr_append_singleton]; simp
  have hvx : valuesAt h1 xs = valuesAt h xs :=
    valuesAt_congr fun b hb => hdata b (hne b (by simp [hb]))
  have hvy : valuesAt h1 (c :: ys) = valuesAt h (c :: ys) :=
    valuesAt_congr fun b hb => hdata b (hne b (List.mem_append_right _ hb))
  have hvxlen : (valuesAt h xs).length = xs.length :=
    valuesAt_length fun b hb => hlive b (by simp [hb])
  refine ⟨h1, h.length, valuesAt h (xs ++ c :: ys), hins, read_ge (Nat.le_refl _), ?_, ?_,
    traverse_dll hwf (by omega), valuesAt_length hlive, ?_⟩
  · exact fun hm => hne _ hm rfl
  · rw [hre]; rfl
  · rw [hhead, traverse_dll hdll (by simp at hf ⊢; omega)]
    rw [valuesAt_append, valuesAt_cons hre, hvx, hvy, valuesAt_append, ← hvxlen,
      insertIdx_append_length]

/-- C4: inserting `v` after a node `c` of a well-formed chain returns the new
node, which holds `v` and takes over the old next link of `c`; the head is
unchanged and traversal from it afterwards reads the old values with `v`
inserted right after the position of `c`. -/
theorem insert_after_chain (h : Heap T) (hd : Ptr) (xs ys : List Nat) (c : Nat) (v : T)
    (fuel : Nat) (hwf : dll h none hd (xs ++ c :: ys))
    (hf : (xs ++ c :: ys).length + 1 ≤ fuel) :
    ∃ h1 e old cur, insert h (some c) v true = some (h1, e) ∧
      read h e = none ∧ e ∉ xs ++ c :: ys ∧
      read h c = some cur ∧
      read h1 e = some ⟨v, cur.pNext, some c⟩ ∧
      (ys = [] → (read h1 e).bind Node.pNext = none) ∧
      traverse fuel h hd = some old ∧ old.length = (xs ++ c :: ys).length ∧
      traverse fuel h1 hd = some (old.insertIdx (xs.length + 1) v) := by
  obtain ⟨cur, h1, hc, hcnext, hins, hlen, hread, hdll⟩ := insert_after_dll v hwf
  have hlive := dll_live hwf
  have hlt := lsegTo_lt (dll_lseg hwf)
  have hdata : ∀ b, b ≠ h.length → (read h1 b).map Node.data = (read h b).map Node.data := by
    intro b hb
    rw [hread b]
    by_cases hbc : b = c
    · subst hbc; simp [hb, hc]
    · by_cases hbp : cur.pNext = some b
      · simp only [hb, hbc, hbp, if_false, if_true, Option.map_map]
        cases read h b <;> rfl
      · simp only [hb, hbc, hbp, if_false]
  have hne : ∀ b ∈ xs ++ c :: ys, b ≠ h.length := fun b hb => Nat.ne_of_lt (hlt b hb)
  have hre : read h1 h.length = some ⟨v, cur.pNext, some c⟩ := by
    rw [hread h.length]; simp
  have hvx : valuesAt h1 (xs ++ [c]) = valuesAt h (xs ++ [c]) :=
    valuesAt_congr fun b hb => hdata b (hne b (by
      rcases List.mem_append.mp hb with hm | hm
      · simp [hm]
      · simp at hm; simp [hm]))
  have hvy : valuesAt h1 ys = valuesAt h ys :=
    valuesAt_congr fun b hb => hdata b (hne b (by simp [hb]))
  have hvxlen : (valuesAt h (xs ++ [c])).length = xs.length + 1 := by
    rw [valuesAt_length]
    · simp
    · intro b hb
      apply hlive
      rcases List.mem_append.mp hb with hm | hm
      · simp [hm]
      · simp at hm; simp [hm]
  have hsplit : xs ++ c :: ys = (xs ++ [c]) ++ ys := by simp
  have hsplit1 : xs ++ c :: h.length :: ys = (xs ++ [c]) ++ h.length :: ys := by simp
  refine ⟨h1, h.length, valuesAt h (xs ++ c :: ys), cur, hins, read_ge (Nat.le_refl _), ?_,
    hc, hre, ?_, traverse_dll hwf (by omega), valuesAt_length hlive, ?_⟩
  · exact fun hm => hne _ hm rfl
  · intro hys
    rw [hre, Option.some_bind, hcnext, hys]
    rfl
  · have e1 : valuesAt h1 (xs ++ c :: h.length :: ys)
        = valuesAt h (xs ++ [c]) ++ v :: valuesAt h ys := by
      rw [hsplit1, valuesAt_append, valuesAt_cons hre, hvx, hvy]
    have e2 : valuesAt h (xs ++ c :: ys) = valuesAt h (xs ++ [c]) ++ valuesAt h ys := by
      rw [hsplit, valuesAt_append]
    rw [traverse_dll hdll (by simp at hf ⊢; omega), e1, e2, ← hvxlen,
      insertIdx_append_length]

/-! ## Properties of `remove` -/

/-- C5: `remove` of `nullptr` returns `nullptr` and changes nothing; `remove`
of a live node whose neighbours are live returns the previous neighbour if
there is one, else the next neighbour if there is one, else `nullptr`, and the
node is destroyed; in particular removing a node without neighbours returns
`nullptr` and touches no other node. -/
theorem remove_result (h : Heap T) (r : Nat) (n : Node T)
    (hr : read h r = some n)
    (hp : ∀ q, n.pPrev = some q → q ≠ r ∧ ∃ qn, read h q = some qn)
    (hx : ∀ q, n.pNext = some q → q ≠ r ∧ ∃ qn, read h q = some qn) :
    remove h none = some (h, none) ∧
    ∃ h1 ret, remove h (some r) = some (h1, ret) ∧
      read h1 r = none ∧
      (∀ q, n.pPrev = some q → ret = some q) ∧
      (n.pPrev = none → ret = n.pNext) ∧
      (n.pPrev = none → n.pNext = none →
        ret = none ∧ h1 = h.set r none ∧ ∀ b, b ≠ r → read h1 b = read h b) := by
  refine ⟨rfl, ?_⟩
  obtain ⟨h1, hrem, hlen, hread⟩ := remove_spec hr hp hx
  refine ⟨h1, _, hrem, ?_, ?_, ?_, ?_⟩
  · rw [hread r]; simp
  · intro q hq; rw [hq]
  · intro hq; rw [hq]
  · intro hq hn
    refine ⟨by rw [hq, hn], ?_, ?_⟩
    · have : remove h (some r) = some (h.set r none, none) := by
        simp [remove, free, hr, hq, hn]
      rw [this] at hrem
      simp only [Option.some.injEq, Prod.mk.injEq] at hrem
      exact hrem.1.symm
    · intro b hb
      rw [hread b]
      simp only [hb, hq, hn, if_false]
      cases read h b <;> simp

/-- C6: removing a node `r` of a well-formed chain leaves a chain whose
traversal from the surviving head (the old next neighbour of `r` when `r` was
the head, the old head otherwise) reads the old values without the one at the
position of `r`; `r` is destroyed and no longer on the chain; the call returns
the previous neighbour, or else the next one. -/
theorem remove_chain (h : Heap T) (hd : Ptr) (xs ys : List Nat) (r : Nat) (fuel : Nat)
    (hwf : dll h none hd (xs ++ r :: ys)) (hf : (xs ++ r :: ys).length ≤ fuel) :
    ∃ h1 ret old, remove h (some r) = some (h1, ret) ∧
      ret = (match (read h r).bind Node.pPrev with
             | some q => some q
             | none => (read h r).bind Node.pNext) ∧
      traverse fuel h hd = some old ∧ old.length = (xs ++ r :: ys).length ∧
      traverse fuel h1 (if hd = some r then (read h r).bind Node.pNext else hd)
        = some (old.eraseIdx xs.length) ∧
      lseg h1 (if hd = some r then (read h r).bind Node.pNext else hd) (xs ++ ys) ∧
      r ∉ xs ++ ys ∧ read h1 r = none := by
  obtain ⟨cur, h1, hc, hcprev, hcnext, hrem, hlen, hread, hdll⟩ := remove_dll hwf
  obtain ⟨_, _, _, _, _, hrx, hry, _, hlt⟩ := dll_split hwf
  have hlive := dll_live hwf
  have hdata : ∀ b, b ≠ r → (read h1 b).map Node.data = (read h b).map Node.data := by
    intro b hb
    rw [hread b]
    simp only [hb, if_false, Option.map_map]
    cases read h b <;> rfl
  have hrmem : r ∉ xs ++ ys := by
    intro hm
    rcases List.mem_append.mp hm with hm | hm
    · exact hrx hm
    · exact hry hm
  have hhead : (if hd = some r then (read h r).bind Node.pNext else hd)
      = if xs = [] then cur.pNext else hd := by
    have hh := lseg_head (dll_lseg hwf)
    rw [hc, Option.some_bind]
    cases xs with
    | nil => simp at hh; simp [hh]
    | cons x xs1 =>
      simp only [List.cons_append, List.head?_cons] at hh
      have hxr : x ≠ r := fun e => hrx (by simp [e])
      simp [hh, hxr]
  have hvals : valuesAt h1 (xs ++ ys) = valuesAt h xs ++ valuesAt h ys := by
    rw [← valuesAt_append]
    exact valuesAt_congr fun b hb => hdata b (fun e => hrmem (e ▸ hb))
  have hvxlen : (valuesAt h xs).length = xs.length :=
    valuesAt_length fun b hb => hlive b (by simp [hb])
  refine ⟨h1, _, valuesAt h (xs ++ r :: ys), hrem, ?_, traverse_dll hwf hf,
    valuesAt_length hlive, ?_, ?_, hrmem, ?_⟩
  · rw [hc]; rfl
  · rw [hhead, traverse_dll hdll (by simp at hf ⊢; omega), hvals, valuesAt_append,
      valuesAt_cons hc, ← hvxlen, eraseIdx_append_length]
  · rw [hhead]; exact dll_lseg hdll
  · rw [hread r]; simp

/-! ## Properties of `clear` and `size` -/

/-- C7: `clear` on a forward chain returns with the reference absent, `size`
of the cleared reference is 0, every node of the chain has been destroyed and
no other node is touched; on an absent reference the store is unchanged. -/
theorem clear_chain (h : Heap T) (p : Ptr) (as : List Nat) (fuel : Nat)
    (hl : lseg h p as) (hf : as.length ≤ fuel) :
    ∃ h1 p1, clear fuel h p = some (h1, p1) ∧ p1 = none ∧
      size fuel h1 p1 = some 0 ∧
      (∀ a ∈ as, read h1 a = none) ∧
      (∀ b, b ∉ as → read h1 b = read h b) ∧
      (p = none → h1 = h) := by
  obtain ⟨h1, hcl, hlen, hdead, hread⟩ := clear_lseg hl hf
  refine ⟨h1, none, hcl, rfl, ?_, ?_, ?_, ?_⟩
  · cases fuel <;> simp [size, sizeLoop]
  · intro a ha; rw [hread a]; simp [ha]
  · intro b hb; rw [hread b]; simp [hb]
  · intro hp
    subst hp
    cases fuel <;> simp [clear] at hcl <;> exact hcl.symm

theorem size_small {h : Heap T} {as : List Nat} {p : Ptr} {fuel : Nat}
    (hl : lseg h p as) (hf : as.length ≤ fuel) (hsmall : as.length < uintModulus) :
    size fuel h p = some as.length := by
  rw [size_lseg hl hf, Nat.mod_eq_of_lt hsmall]

/-- The result of `size` only depends on the `pNext` links. -/
theorem sizeLoop_next_only (fuel : Nat) :
    ∀ (h h1 : Heap T) (p : Ptr) (acc : Nat),
      (∀ a, (read h1 a).map Node.pNext = (read h a).map Node.pNext) →
      sizeLoop fuel h1 p acc = sizeLoop fuel h p acc := by
  induction fuel with
  | zero => intro h h1 p acc _; cases p <;> simp [sizeLoop]
  | succ fuel ih =>
    intro h h1 p acc hsame
    cases p with
    | none => simp [sizeLoop]
    | some a =>
      have ha := hsame a
      simp only [sizeLoop]
      cases hr : read h a with
      | none =>
        rw [hr] at ha
        cases hr1 : read h1 a with
        | none => rfl
        | some n1 => rw [hr1] at ha; simp at ha
      | some n =>
        rw [hr] at ha
        cases hr1 : read h1 a with
        | none => rw [hr1] at ha; simp at ha
        | some n1 =>
          rw [hr1] at ha
          simp only [Option.map_some', Option.some.injEq] at ha
          simp only [ha]
          exact ih h h1 n.pNext _ hsame

theorem read_longChain {n i : Nat} (hi : i < n) :
    read (longChain n) i =
      some ⟨0, if i + 1 < n then some (i + 1) else none,
        if i = 0 then none else some (i - 1)⟩ := by
  simp [read, longChain, List.getElem?_map, List.getElem?_range hi]

theorem lsegTo_longChain (n : Nat) :
    ∀ (j k : Nat), k + j = n →
      lsegTo (longChain n) (if k < n then some k else none) (List.range' k j) none := by
  intro j
  induction j with
  | zero =>
    intro k hk
    have : ¬ k < n := by omega
    simp [this, lsegTo]
  | succ j ih =>
    intro k hk
    have hlt : k < n := by omega
    simp only [hlt, if_true, List.range'_succ]
    refine lsegTo_cons.mpr ⟨rfl, _, read_longChain hlt, ?_⟩
    exact ih (k + 1) (by omega)

theorem lseg_longChain {n : Nat} (hn : 0 < n) :
    lseg (longChain n) (some 0) (List.range n) := by
  have := lsegTo_longChain n n 0 (by omega)
  simp only [hn, if_true] at this
  rw [List.range_eq_range']
  exact this

theorem size_longChain {n : Nat} (hn : 0 < n) :
    size n (longChain n) (some 0) = some (n % uintModulus) := by
  have hlen : (List.range n).length = n := List.length_range n
  have := size_lseg (lseg_longChain hn) (Nat.le_of_eq hlen)
  rw [hlen] at this
  exact this

theorem size_longChain_wraps (n : Nat) (hn : 0 < n) (hmod : n % uintModulus = 0) :
    lseg (longChain n) (some 0) (List.range n) ∧
    (List.range n).length = n ∧
    size n (longChain n) (some 0) = some 0 := by
  refine ⟨lseg_longChain hn, List.length_range n, ?_⟩
  rw [size_longChain hn, hmod]

theorem uintModulus_eq : uintModulus = 4294967296 := by
  unfold uintModulus
  norm_num

/-- C8 (what the code does past the range of `unsigned int`): on a chain of
`2 ^ 32` nodes `size` returns 0, not the number of nodes. -/
theorem size_wraps_around :
    lseg (longChain 4294967296) (some 0) (List.range 4294967296) ∧
    (List.range 4294967296).length = 4294967296 ∧
    size 4294967296 (longChain 4294967296) (some 0) = some 0 :=
  size_longChain_wraps 4294967296 (Nat.succ_pos _)
    (by rw [uintModulus_eq])

/-! ## Properties of `copy` and `assign` -/

theorem assignNodes_length (h : Heap T) (as bs : List Nat) :
    (assignNodes h as bs).length = bs.length := by
  simp [assignNodes]
  omega

theorem assignNodes_take (h : Heap T) (as bs : List Nat) :
    (assignNodes h as bs).take (min as.length bs.length)
      = as.take (min as.length bs.length) := by
  have h1 : (as.take bs.length).length = min as.length bs.length := by
    simp [Nat.min_comm]
  have h2 : as.take (min as.length bs.length) = as.take bs.length := by
    rw [← List.take_take]
    exact List.take_of_length_le (by simp)
  rw [h2, ← h1]
  exact List.take_left _ _

theorem assignNodes_fresh (h : Heap T) (as bs : List Nat) :
    ∀ b ∈ (assignNodes h as bs).drop (min as.length bs.length), read h b = none := by
  have h1 : (as.take bs.length).length = min as.length bs.length := by
    simp [Nat.min_comm]
  intro b hb
  rw [← h1] at hb
  simp only [assignNodes, List.drop_left, List.mem_range'_1] at hb
  exact read_ge hb.1

/-- C2: `copy` of a forward chain returns the head of a chain whose values,
read by forward traversal, are those of the source in the same order, so the
sizes agree; for an absent source the result is absent. -/
theorem copy_values (h : Heap T) (pSource : Ptr) (bs : List Nat) (fuel : Nat)
    (hl : lseg h pSource bs) (hf : bs.length ≤ fuel) :
    ∃ h1 r, copy fuel h pSource = some (h1, r) ∧
      traverse fuel h pSource = some (valuesAt h bs) ∧
      traverse fuel h1 r = some (valuesAt h bs) ∧
      size fuel h1 r = size fuel h pSource ∧
      (pSource = none → r = none) := by
  have hf1 : bs.length ≤ fuel + 1 := by omega
  obtain ⟨h1, hcp, hlen, hread, hdll, hval⟩ := copy_spec hl hf1
  have hlen1 : (List.range' h.length bs.length).length ≤ fuel := by simpa using hf
  refine ⟨h1, _, hcp, traverse_lseg hl hf, ?_, ?_, ?_⟩
  · rw [traverse_dll hdll hlen1, hval]
  · rw [size_lseg (dll_lseg hdll) hlen1, size_lseg hl hf]; simp
  · intro hp
    subst hp
    have : bs = [] := by
      cases bs with
      | nil => rfl
      | cons b bs => exact absurd (lsegTo_cons.mp hl).1 (by simp)
    subst this
    rfl

/-- C1: after `assign` on a well-formed destination and a disjoint source, the
values read by forward traversal from the destination reference are those of
the source, in the same order, and both chains have the same size. -/
theorem assign_values (h : Heap T) (D S : Ptr) (as bs : List Nat) (fuel : Nat)
    (hd : dll h none D as) (hs : lseg h S bs) (hdisj : ∀ a ∈ as, a ∉ bs)
    (hfa : as.length ≤ fuel) (hfb : bs.length ≤ fuel) :
    ∃ h1 D1, assign fuel h (Ref.var D) S = some (h1, Ref.var D1) ∧
      traverse fuel h S = some (valuesAt h bs) ∧
      traverse fuel h1 S = some (valuesAt h bs) ∧
      traverse fuel h1 D1 = some (valuesAt h bs) ∧
      size fuel h1 D1 = size fuel h1 S ∧
      size fuel h1 S = size fuel h S := by
  obtain ⟨h1, D1, hassign, _, _, _, hdll, hval, _, hframe, _⟩ :=
    assign_spec hd hs hdisj hfa hfb
  have hlts := lsegTo_lt hs
  have hsrc : ∀ b ∈ bs, read h1 b = read h b := fun b hb =>
    hframe b (hlts b hb) (fun hm => hdisj b hm hb)
  have hs1 : lseg h1 S bs := lsegTo_frame hsrc hs
  have hn : (assignNodes h as bs).length ≤ fuel := by
    rw [assignNodes_length]; exact hfb
  refine ⟨h1, D1, hassign, traverse_lseg hs hfb, ?_, ?_, ?_, ?_⟩
  · rw [traverse_lseg hs1 hfb, valuesAt_frame hsrc]
  · rw [traverse_dll hdll hn, hval]
  · rw [size_lseg (dll_lseg hdll) hn, size_lseg hs1 hfb, assignNodes_length]
  · rw [size_lseg hs1 hfb, size_lseg hs hfb]

/-- C9: a second `assign` from the same source changes nothing: it returns
the same store (hence the same nodes, links and values) and the same
destination reference as the first, and the destination then reads as the
source. -/
theorem assign_idempotent (h : Heap T) (D S : Ptr) (as bs : List Nat) (fuel : Nat)
    (hd : dll h none D as) (hs : lseg h S bs) (hdisj : ∀ a ∈ as, a ∉ bs)
    (hfa : as.length ≤ fuel) (hfb : bs.length ≤ fuel) :
    ∃ h1 D1, assign fuel h (Ref.var D) S = some (h1, Ref.var D1) ∧
      assign fuel h1 (Ref.var D1) S = some (h1, Ref.var D1) ∧
      traverse fuel h1 D1 = some (valuesAt h bs) ∧
      traverse fuel h1 S = some (valuesAt h bs) := by
  obtain ⟨h1, D1, hassign, hD1, hlen, _, hdll, hval, _, hframe, _⟩ :=
    assign_spec hd hs hdisj hfa hfb
  have hlts := lsegTo_lt hs
  have hsrc : ∀ b ∈ bs, read h1 b = read h b := fun b hb =>
    hframe b (hlts b hb) (fun hm => hdisj b hm hb)
  have hs1 : lseg h1 S bs := lsegTo_frame hsrc hs
  have hn : (assignNodes h as bs).length = bs.length := assignNodes_length h as bs
  have hdisj1 : ∀ a ∈ assignNodes h as bs, a ∉ bs := by
    intro a ha hm
    rcases List.mem_append.mp ha with h2 | h2
    · exact hdisj a (List.mem_of_mem_take h2) hm
    · have := (List.mem_range'_1.mp h2).1
      have := hlts a hm
      omega
  obtain ⟨h2, D2, hassign2, hD2, _, _, _, _, _, _, hfix⟩ :=
    assign_spec hdll hs1 hdisj1 (Nat.le_of_eq (hn.trans rfl) |>.trans hfb) hfb
  have hv1 : valuesAt h1 (assignNodes h as bs) = valuesAt h1 bs := by
    rw [hval, valuesAt_frame hsrc]
  have h21 : h2 = h1 := hfix hn hv1
  have hD21 : D2 = D1 := by
    rw [hD2, hD1]
    have : assignNodes h1 (assignNodes h as bs) bs = assignNodes h as bs := by
      have ht : (assignNodes h as bs).take bs.length = assignNodes h as bs :=
        List.take_of_length_le (by omega)
      simp only [assignNodes] at ht ⊢
      rw [ht]
      simp only [assignNodes] at hn
      simp [hn]
    rw [this]
  rw [h21, hD21] at hassign2
  refine ⟨h1, D1, hassign, hassign2, ?_, ?_⟩
  · rw [traverse_dll hdll (by omega), hval]
  · rw [traverse_lseg hs1 hfb, valuesAt_frame hsrc]

/-- C10: `assign` reuses the destination nodes: the resulting chain starts with
the first `min m n` nodes of the old destination, in order, followed by nodes
that did not exist before; exactly `n - m` nodes are allocated and exactly
`m - n` are destroyed (truncated subtraction), the destroyed ones being the
old destination nodes past the `n`-th. -/
theorem assign_reuses_nodes (h : Heap T) (D S : Ptr) (as bs : List Nat) (fuel : Nat)
    (hd : dll h none D as) (hs : lseg h S bs) (hdisj : ∀ a ∈ as, a ∉ bs)
    (hfa : as.length ≤ fuel) (hfb : bs.length ≤ fuel) :
    ∃ h1 D1 as1, assign fuel h (Ref.var D) S = some (h1, Ref.var D1) ∧
      dll h1 none D1 as1 ∧ as1.length = bs.length ∧
      as1.take (min as.length bs.length) = as.take (min as.length bs.length) ∧
      (∀ b ∈ as1.drop (min as.length bs.length), read h b = none) ∧
      h1.length = h.length + (bs.length - as.length) ∧
      deadCount h1 = deadCount h + (as.length - bs.length) ∧
      (∀ b ∈ as.drop bs.length, read h1 b = none) ∧
      traverse fuel h1 D1 = some (valuesAt h bs) := by
  obtain ⟨h1, D1, hassign, _, hlen, hdead, hdll, hval, hgone, _, _⟩ :=
    assign_spec hd hs hdisj hfa hfb
  refine ⟨h1, D1, assignNodes h as bs, hassign, hdll, assignNodes_length h as bs,
    assignNodes_take h as bs, assignNodes_fresh h as bs, hlen, hdead, hgone, ?_⟩
  rw [traverse_dll hdll (by rw [assignNodes_length]; exact hfb), hval]

/-! ## The properties at concrete chains -/

theorem chain123_dll : dll chain123 none (some 0) [0, 1, 2] := by
  simp [dll, dllTo, read, chain123]

theorem store42_dll : dll store42 none (some 0) [0, 1, 2, 3] := by
  simp [dll, dllTo, read, store42]

theorem store42_lseg : lseg store42 (some 4) [4, 5] := by
  simp [lseg, lsegTo, read, store42]

theorem store23_dll : dll store23 none (some 0) [0, 1] := by
  simp [dll, dllTo, read, store23]

theorem store23_lseg : lseg store23 (some 2) [2, 3, 4] := by
  simp [lseg, lsegTo, read, store23]

/-- C1 at the destination `[1, 2, 3, 4]` and the source `[9, 8]`: the
destination reads `[9, 8]` afterwards. -/
theorem assign_values_witness :
    (∃ h1 D1, assign 4 store42 (Ref.var (some 0)) (some 4) = some (h1, Ref.var D1) ∧
      traverse 4 store42 (some 4) = some (valuesAt store42 [4, 5]) ∧
      traverse 4 h1 (some 4) = some (valuesAt store42 [4, 5]) ∧
      traverse 4 h1 D1 = some (valuesAt store42 [4, 5]) ∧
      size 4 h1 D1 = size 4 h1 (some 4) ∧
      size 4 h1 (some 4) = size 4 store42 (some 4)) ∧
    valuesAt store42 [4, 5] = [9, 8] ∧
    (assign 4 store42 (Ref.var (some 0)) (some 4)).bind
        (fun r => (loadRef r.1 r.2).bind (traverse 4 r.1)) = some [9, 8] :=
  ⟨assign_values store42 (some 0) (some 4) [0, 1, 2, 3] [4, 5] 4 store42_dll store42_lseg
    (by decide) (by decide) (by decide), by decide, by decide⟩

/-- C2 at the chain `[1, 2, 3]`: the copy reads `[1, 2, 3]`. -/
theorem copy_values_witness :
    (∃ h1 r, copy 3 chain123 (some 0) = some (h1, r) ∧
      traverse 3 chain123 (some 0) = some (valuesAt chain123 [0, 1, 2]) ∧
      traverse 3 h1 r = some (valuesAt chain123 [0, 1, 2]) ∧
      size 3 h1 r = size 3 chain123 (some 0) ∧
      ((some 0 : Ptr) = none → r = none)) ∧
    (copy 3 chain123 (some 0)).bind (fun r => traverse 3 r.1 r.2) = some [1, 2, 3] ∧
    copy 3 chain123 none = some (chain123, none) :=
  ⟨copy_values chain123 (some 0) [0, 1, 2] 3 (dll_lseg chain123_dll) (by decide),
    by decide, by decide⟩

/-- C3 at the chain `[1, 2, 3]`: inserting 99 before the node holding 2 gives
`[1, 99, 2, 3]`. -/
theorem insert_before_chain_witness :
    (∃ h1 e old, insert chain123 (some 1) 99 false = some (h1, e) ∧
      read chain123 e = none ∧ e ∉ [0] ++ 1 :: [2] ∧
      (read h1 e).map Node.data = some 99 ∧
      traverse 5 chain123 (some 0) = some old ∧ old.length = ([0] ++ 1 :: [2]).length ∧
      traverse 5 h1
          (match (read chain123 1).bind Node.pPrev with
           | none => some e
           | some _ => some 0)
        = some (old.insertIdx [0].length 99)) ∧
    (insert chain123 (some 1) 99 false).bind (fun r => traverse 5 r.1 (some 0))
      = some [1, 99, 2, 3] ∧
    (insert chain123 (some 1) 99 false).bind (fun r => (read r.1 r.2).map Node.data)
      = some 99 :=
  ⟨insert_before_chain chain123 (some 0) [0] [2] 1 99 5 chain123_dll (by decide),
    by decide, by decide⟩

/-- C4 at the chain `[1, 2, 3]`: inserting 99 after the node holding 3 gives
`[1, 2, 3, 99]`. -/
theorem insert_after_chain_witness :
    (∃ h1 e old cur, insert chain123 (some 2) 99 true = some (h1, e) ∧
      read chain123 e = none ∧ e ∉ [0, 1] ++ 2 :: [] ∧
      read chain123 2 = some cur ∧
      read h1 e = some ⟨99, cur.pNext, some 2⟩ ∧
      (([] : List Nat) = [] → (read h1 e).bind Node.pNext = none) ∧
      traverse 5 chain123 (some 0) = some old ∧ old.length = ([0, 1] ++ 2 :: []).length ∧
      traverse 5 h1 (some 0) = some (old.insertIdx ([0, 1].length + 1) 99)) ∧
    (insert chain123 (some 2) 99 true).bind (fun r => traverse 5 r.1 (some 0))
      = some [1, 2, 3, 99] :=
  ⟨insert_after_chain chain123 (some 0) [0, 1] [] 2 99 5 chain123_dll (by decide),
    by decide⟩

/-- C5 at the middle node of `[1, 2, 3]`: `remove` returns the previous
neighbour. -/
theorem remove_result_witness :
    (remove chain123 none = some (chain123, none) ∧
      ∃ h1 ret, remove chain123 (some 1) = some (h1, ret) ∧
        read h1 1 = none ∧
        (∀ q, (Node.mk 2 (some 2) (some 0)).pPrev = some q → ret = some q) ∧
        ((Node.mk 2 (some 2) (some 0)).pPrev = none →
          ret = (Node.mk 2 (some 2) (some 0)).pNext) ∧
        ((Node.mk 2 (some 2) (some 0)).pPrev = none →
          (Node.mk 2 (some 2) (some 0)).pNext = none →
          ret = none ∧ h1 = chain123.set 1 none ∧
            ∀ b, b ≠ 1 → read h1 b = read chain123 b)) ∧
    (remove chain123 (some 1)).map (fun r => r.2) = some (some 0) ∧
    remove [some (Node.mk 7 none none)] (some 0) = some ([none], none) :=
  ⟨remove_result chain123 1 ⟨2, some 2, some 0⟩ (by decide)
      (by intro q hq; cases hq; exact ⟨by decide, _, rfl⟩)
      (by intro q hq; cases hq; exact ⟨by decide, _, rfl⟩),
    by decide, by decide⟩

/-- C6 at the chain `[1, 2, 3]`: removing the node holding 2 gives `[1, 3]`
and returns the node holding 1. -/
theorem remove_chain_witness :
    (∃ h1 ret old, remove chain123 (some 1) = some (h1, ret) ∧
      ret = (match (read chain123 1).bind Node.pPrev with
             | some q => some q
             | none => (read chain123 1).bind Node.pNext) ∧
      traverse 3 chain123 (some 0) = some old ∧ old.length = ([0] ++ 1 :: [2]).length ∧
      traverse 3 h1
          (if (some 0 : Ptr) = some 1 then (read chain123 1).bind Node.pNext else some 0)
        = some (old.eraseIdx [0].length) ∧
      lseg h1 (if (some 0 : Ptr) = some 1 then (read chain123 1).bind Node.pNext else some 0)
        ([0] ++ [2]) ∧
      1 ∉ [0] ++ [2] ∧ read h1 1 = none) ∧
    (remove chain123 (some 1)).bind (fun r => traverse 3 r.1 (some 0)) = some [1, 3] ∧
    (remove chain123 (some 1)).map (fun r => r.2) = some (some 0) :=
  ⟨remove_chain chain123 (some 0) [0] [2] 1 3 chain123_dll (by decide),
    by decide, by decide⟩

/-- C7 at the chain `[1, 2, 3]`: every node is destroyed. -/
theorem clear_chain_witness :
    (∃ h1 p1, clear 3 chain123 (some 0) = some (h1, p1) ∧ p1 = none ∧
      size 3 h1 p1 = some 0 ∧
      (∀ a ∈ [0, 1, 2], read h1 a = none) ∧
      (∀ b, b ∉ [0, 1, 2] → read h1 b = read chain123 b) ∧
      ((some 0 : Ptr) = none → h1 = chain123)) ∧
    clear 3 chain123 (some 0) = some ([none, none, none], none) ∧
    clear 3 chain123 none = some (chain123, none) :=
  ⟨clear_chain chain123 (some 0) [0, 1, 2] 3 (dll_lseg chain123_dll) (by decide),
    by decide, by decide⟩

/-- C9 at the destination `[1, 2, 3, 4]` and the source `[9, 8]`. -/
theorem assign_idempotent_witness :
    ∃ h1 D1, assign 4 store42 (Ref.var (some 0)) (some 4) = some (h1, Ref.var D1) ∧
      assign 4 h1 (Ref.var D1) (some 4) = some (h1, Ref.var D1) ∧
      traverse 4 h1 D1 = some (valuesAt store42 [4, 5]) ∧
      traverse 4 h1 (some 4) = some (valuesAt store42 [4, 5]) :=
  assign_idempotent store42 (some 0) (some 4) [0, 1, 2, 3] [4, 5] 4 store42_dll store42_lseg
    (by decide) (by decide) (by decide)

/-- C10 at the destination `[1, 2]` and the source `[9, 8, 7]`: one node is
allocated and none destroyed; and at the destination `[1, 2, 3, 4]` and the
source `[9, 8]`: two nodes are destroyed and none allocated. -/
theorem assign_reuses_nodes_witness :
    (∃ h1 D1 as1, assign 3 store23 (Ref.var (some 0)) (some 2) = some (h1, Ref.var D1) ∧
      dll h1 none D1 as1 ∧ as1.length = [2, 3, 4].length ∧
      as1.take (min [0, 1].length [2, 3, 4].length)
        = [0, 1].take (min [0, 1].length [2, 3, 4].length) ∧
      (∀ b ∈ as1.drop (min [0, 1].length [2, 3, 4].length), read store23 b = none) ∧
      h1.length = store23.length + ([2, 3, 4].length - [0, 1].length) ∧
      deadCount h1 = deadCount store23 + ([0, 1].length - [2, 3, 4].length) ∧
      (∀ b ∈ [0, 1].drop [2, 3, 4].length, read h1 b = none) ∧
      traverse 3 h1 D1 = some (valuesAt store23 [2, 3, 4])) ∧
    (assign 3 store23 (Ref.var (some 0)) (some 2)).bind
        (fun r => (loadRef r.1 r.2).bind (traverse 3 r.1))
      = some [9, 8, 7] ∧
    (assign 3 store23 (Ref.var (some 0)) (some 2)).map
        (fun r => (r.1.length - store23.length, deadCount r.1 - deadCount store23))
      = some (1, 0) ∧
    (assign 4 store42 (Ref.var (some 0)) (some 4)).bind
        (fun r => (loadRef r.1 r.2).bind (traverse 4 r.1))
      = some [9, 8] ∧
    (assign 4 store42 (Ref.var (some 0)) (some 4)).map
        (fun r => (r.1.length - store42.length, deadCount r.1 - deadCount store42))
      = some (0, 2) :=
  ⟨assign_reuses_nodes store23 (some 0) (some 2) [0, 1] [2, 3, 4] 3 store23_dll store23_lseg
    (by decide) (by decide) (by decide), by decide, by decide, by decide, by decide⟩

/-! ## Chains in the words of the data model -/

theorem consistentAt_iff {h : Heap T} {a : Nat} :
    consistentAt h a ↔ ∃ n, read h a = some n ∧
      (∀ q, n.pNext = some q → (read h q).map Node.pPrev = some (some a)) ∧
      (∀ q, n.pPrev = some q → (read h q).map Node.pNext = some (some a)) := by
  unfold consistentAt
  cases hr : read h a with
  | none => simp
  | some n =>
    cases hn : n.pNext <;> cases hp : n.pPrev <;> simp [hn, hp]

/-- A forward chain whose nodes are consistent is doubly linked, provided the
`pPrev` link of its first node is `prev`. -/
theorem dllTo_of_consistent {h : Heap T} {as : List Nat} :
    ∀ {prev p : Ptr}, lseg h p as → (∀ a ∈ as, consistentAt h a) →
      (∀ a, as.head? = some a → (read h a).map Node.pPrev = some prev) →
      dllTo h prev p as none := by
  induction as with
  | nil => intro prev p hl _ _; simpa [lseg, lsegTo, dllTo] using hl
  | cons a as ih =>
    intro prev p hl hc hhead
    obtain ⟨hp, n, hr, hrest⟩ := lsegTo_cons.mp hl
    have hpv : n.pPrev = prev := by
      have := hhead a rfl
      rw [hr] at this
      simpa using this
    refine dllTo_cons.mpr ⟨hp, n, hr, hpv, ?_⟩
    refine ih hrest (fun b hb => hc b (List.mem_cons_of_mem a hb)) ?_
    intro b hb
    obtain ⟨n1, hr1, hnx, _⟩ := consistentAt_iff.mp (hc a (List.mem_cons_self a as))
    rw [hr] at hr1
    cases hr1
    have hnb : n.pNext = some b := by
      have := lseg_head hrest
      rw [this, hb]
    exact hnx b hnb

theorem dll_head_prev {h : Heap T} {prev p : Ptr} {as : List Nat} (hd : dll h prev p as) :
    ∀ a, as.head? = some a → (read h a).bind Node.pPrev = prev := by
  intro a ha
  cases as with
  | nil => simp at ha
  | cons b bs =>
    simp only [List.head?_cons, Option.some.injEq] at ha
    subst ha
    obtain ⟨_, n, hr, hpv, _⟩ := dllTo_cons.mp hd
    rw [hr]; exact hpv

theorem dll_last_next {h : Heap T} {prev p : Ptr} {as : List Nat} (hd : dll h prev p as) :
    ∀ a, as.getLast? = some a → (read h a).bind Node.pNext = none := by
  intro a ha
  rcases nil_or_snoc as with rfl | ⟨xs, b, rfl⟩
  · simp at ha
  · have hb : (xs ++ [b]).getLast? = some b := by simp
    rw [hb] at ha
    cases ha
    obtain ⟨_, n, hr, _, hnx⟩ := dllTo_snoc.mp hd
    rw [hr]; exact hnx

theorem dll_consistent {h : Heap T} {hd : Ptr} {as : List Nat} (hwf : dll h none hd as) :
    ∀ a ∈ as, consistentAt h a := by
  intro a ha
  obtain ⟨xs, ys, rfl⟩ := List.append_of_mem ha
  obtain ⟨cur, hc, hcprev, hxs, hys, _, _, _, _⟩ := dll_split hwf
  refine consistentAt_iff.mpr ⟨cur, hc, ?_, ?_⟩
  · intro q hq
    rw [hq] at hys
    cases ys with
    | nil => simp [dll, dllTo] at hys
    | cons y ys1 =>
      obtain ⟨hy, yn, hyn, hyprev, _⟩ := dllTo_cons.mp hys
      cases hy
      rw [hyn]; simp [hyprev]
  · intro q hq
    rw [hcprev] at hq
    obtain ⟨xs1, rfl⟩ := lastPtr_eq_some hq
    obtain ⟨_, qn, hqn, _, hqnext⟩ := dllTo_snoc.mp hxs
    rw [hqn]; simp [hqnext]

/-- The chains of the data model are exactly the doubly-linked chains whose
first node has no previous neighbour. -/
theorem wellLinked_iff_dll {h : Heap T} {hd : Ptr} {as : List Nat} :
    WellLinked h hd as ↔ dll h none hd as := by
  constructor
  · rintro ⟨hl, hc, hhead, _⟩
    refine dllTo_of_consistent hl hc ?_
    intro a ha
    have hb := hhead a ha
    obtain ⟨n, hr, _⟩ := consistentAt_iff.mp (hc a (List.mem_of_mem_head? ha))
    rw [hr] at hb ⊢
    simpa using hb
  · intro hwf
    exact ⟨dll_lseg hwf, dll_consistent hwf, dll_head_prev hwf, dll_last_next hwf⟩

/-! ## Further properties of `assign`, `copy` and `insert` -/

theorem lseg_nil_of_none {h : Heap T} {as : List Nat} (hl : lseg h none as) : as = [] := by
  cases as with
  | nil => rfl
  | cons a as => exact absurd (lsegTo_cons.mp hl).1 (by simp)

theorem lseg_cons_of_some {h : Heap T} {p : Ptr} {as : List Nat} (hl : lseg h p as)
    (hp : p ≠ none) : ∃ a as1, as = a :: as1 ∧ p = some a := by
  cases as with
  | nil => exact absurd (by simpa [lseg, lsegTo] using hl) hp
  | cons a as1 => exact ⟨a, as1, rfl, (lsegTo_cons.mp hl).1⟩

/-- C11: the destination reference after `assign` on a well-formed head: the
same node when both chains are non-empty; the first newly allocated node when
the destination was absent and the source is not; absent, with every
destination node destroyed, when the source is absent and the destination is
not; absent, with the store unchanged, when both are absent. -/
theorem assign_head_reference (h : Heap T) (D S : Ptr) (as bs : List Nat) (fuel : Nat)
    (hd : dll h none D as) (hs : lseg h S bs) (hdisj : ∀ a ∈ as, a ∉ bs)
    (hfa : as.length ≤ fuel) (hfb : bs.length ≤ fuel) :
    ∃ h1 D1, assign fuel h (Ref.var D) S = some (h1, Ref.var D1) ∧
      (D ≠ none → S ≠ none → D1 = D) ∧
      (D = none → S ≠ none →
        D1 = some h.length ∧ read h h.length = none ∧ ∃ n, read h1 h.length = some n) ∧
      (D ≠ none → S = none → D1 = none ∧ ∀ a ∈ as, read h1 a = none) ∧
      (D = none → S = none → D1 = none ∧ h1 = h) := by
  obtain ⟨h1, D1, hassign, hD1, _, _, hdll, _, hgone, _, hfix⟩ :=
    assign_spec hd hs hdisj hfa hfb
  refine ⟨h1, D1, hassign, ?_, ?_, ?_, ?_⟩
  · intro hD hS
    obtain ⟨a, as1, rfl, hDa⟩ := lseg_cons_of_some (dll_lseg hd) hD
    obtain ⟨s, bs1, rfl, _⟩ := lseg_cons_of_some hs hS
    rw [hD1, hDa]
    simp [assignNodes]
  · intro hD hS
    subst hD
    have has : as = [] := lseg_nil_of_none (dll_lseg hd)
    subst has
    obtain ⟨s, bs1, rfl, _⟩ := lseg_cons_of_some hs hS
    have hnodes : assignNodes h [] (s :: bs1)
        = h.length :: List.range' (h.length + 1) bs1.length := by
      simp [assignNodes, List.range'_succ]
    rw [hnodes] at hD1 hdll
    refine ⟨by rw [hD1]; rfl, read_ge (Nat.le_refl _), ?_⟩
    exact dll_live hdll h.length (List.mem_cons_self _ _)
  · intro _ hS
    subst hS
    have hbs : bs = [] := lseg_nil_of_none hs
    subst hbs
    refine ⟨by rw [hD1]; simp [assignNodes], ?_⟩
    intro a ha
    exact hgone a (by simpa using ha)
  · intro hD hS
    subst hD
    subst hS
    have has : as = [] := lseg_nil_of_none (dll_lseg hd)
    have hbs : bs = [] := lseg_nil_of_none hs
    subst has
    subst hbs
    exact ⟨by rw [hD1]; simp [assignNodes], hfix rfl rfl⟩

/-- C12: `copy` is a deep copy: the nodes of the returned chain did not exist
before the call, so none of them is a node of the source, and every node that
existed before (the source's in particular) is left exactly as it was. -/
theorem copy_deep (h : Heap T) (pSource : Ptr) (bs : List Nat) (fuel : Nat)
    (hl : lseg h pSource bs) (hf : bs.length ≤ fuel) :
    ∃ h1 r cs, copy fuel h pSource = some (h1, r) ∧
      lseg h1 r cs ∧ cs.length = bs.length ∧
      (∀ c ∈ cs, c ∉ bs) ∧
      (∀ c ∈ cs, read h c = none) ∧
      (∀ b ∈ bs, read h1 b = read h b) ∧
      (∀ b, b < h.length → read h1 b = read h b) := by
  have hf1 : bs.length ≤ fuel + 1 := by omega
  obtain ⟨h1, hcp, _, hread, hdll, _⟩ := copy_spec hl hf1
  have hlt := lsegTo_lt hl
  refine ⟨h1, _, List.range' h.length bs.length, hcp, dll_lseg hdll, by simp, ?_, ?_, ?_,
    hread⟩
  · intro c hc hm
    have h1 := (List.mem_range'_1.mp hc).1
    have h2 := hlt c hm
    omega
  · intro c hc
    exact read_ge (List.mem_range'_1.mp hc).1
  · intro b hb
    exact hread b (hlt b hb)

/-- C13: `insert` at an absent position, with either flag, returns a newly
created node that holds `v` and has both links absent, and leaves every
existing node as it was. -/
theorem insert_absent (h : Heap T) (v : T) (after : Bool) :
    ∃ h1 e, insert h none v after = some (h1, e) ∧
      read h e = none ∧
      read h1 e = some ⟨v, none, none⟩ ∧
      h1.length = h.length + 1 ∧
      ∀ b, b ≠ e → read h1 b = read h b := by
  refine ⟨h ++ [some ⟨v, none, none⟩], h.length, insert_null h v after,
    read_ge (Nat.le_refl _), ?_, by simp, ?_⟩
  · rw [read_append]; simp
  · intro b hb
    rw [read_append]; simp [hb]

/-- C14: `insert` (with either flag) at a node of a chain, and `remove` of a
node of a chain, leave a chain: every node of the result, the new node
included and the removed one excluded, is bidirectionally consistent, the
`pPrev` link of the head and the `pNext` link of the tail are absent. -/
theorem insert_remove_keep_links (h : Heap T) (hd : Ptr) (xs ys : List Nat) (c : Nat)
    (v : T) (hwf : WellLinked h hd (xs ++ c :: ys)) :
    (∃ h1 e, insert h (some c) v false = some (h1, e) ∧
      WellLinked h1 (if xs = [] then some e else hd) (xs ++ e :: c :: ys)) ∧
    (∃ h1 e, insert h (some c) v true = some (h1, e) ∧
      WellLinked h1 hd (xs ++ c :: e :: ys)) ∧
    (∃ h1 ret, remove h (some c) = some (h1, ret) ∧
      WellLinked h1 (if xs = [] then ys.head? else hd) (xs ++ ys) ∧
      c ∉ xs ++ ys ∧ read h1 c = none) := by
  have hdll := wellLinked_iff_dll.mp hwf
  refine ⟨?_, ?_, ?_⟩
  · obtain ⟨_, h1, _, _, hins, _, _, hres⟩ := insert_before_dll v hdll
    exact ⟨h1, h.length, hins, wellLinked_iff_dll.mpr hres⟩
  · obtain ⟨_, h1, _, _, hins, _, _, hres⟩ := insert_after_dll v hdll
    exact ⟨h1, h.length, hins, wellLinked_iff_dll.mpr hres⟩
  · obtain ⟨cur, h1, _, _, hnext, hrem, _, hread, hres⟩ := remove_dll hdll
    obtain ⟨_, _, _, _, _, hcx, hcy, _, _⟩ := dll_split hdll
    rw [hnext] at hres
    refine ⟨h1, _, hrem, wellLinked_iff_dll.mpr hres, ?_, ?_⟩
    · intro hm
      rcases List.mem_append.mp hm with hm | hm
      · exact hcx hm
      · exact hcy hm
    · rw [hread c]; simp

/-- C15: the chain returned by `copy`, and the destination chain after
`assign` on a well-formed head and a disjoint source, are chains of the data
model (consistent links, head without previous neighbour, tail without next
neighbour) made of live nodes only; the nodes that `assign` destroys are not
on the resulting chain. -/
theorem copy_assign_wellLinked (h : Heap T) (S : Ptr) (bs : List Nat) (fuel : Nat)
    (hs : lseg h S bs) (hfb : bs.length ≤ fuel) :
    (∃ h1 r cs, copy fuel h S = some (h1, r) ∧ WellLinked h1 r cs ∧
      ∀ c ∈ cs, ∃ n, read h1 c = some n) ∧
    (∀ D as, WellLinked h D as → (∀ a ∈ as, a ∉ bs) → as.length ≤ fuel →
      ∃ h1 D1 as1, assign fuel h (Ref.var D) S = some (h1, Ref.var D1) ∧
        WellLinked h1 D1 as1 ∧
        (∀ a ∈ as1, ∃ n, read h1 a = some n) ∧
        (∀ a ∈ as.drop bs.length, read h1 a = none ∧ a ∉ as1)) := by
  refine ⟨?_, ?_⟩
  · have hf1 : bs.length ≤ fuel + 1 := by omega
    obtain ⟨h1, hcp, _, _, hdll, _⟩ := copy_spec hs hf1
    exact ⟨h1, _, _, hcp, wellLinked_iff_dll.mpr hdll, dll_live hdll⟩
  · intro D as hwf hdisj hfa
    obtain ⟨h1, D1, hassign, _, _, _, hdll, _, hgone, _, _⟩ :=
      assign_spec (wellLinked_iff_dll.mp hwf) hs hdisj hfa hfb
    refine ⟨h1, D1, _, hassign, wellLinked_iff_dll.mpr hdll, dll_live hdll, ?_⟩
    intro a ha
    refine ⟨hgone a ha, ?_⟩
    intro hm
    obtain ⟨n, hn⟩ := dll_live hdll a hm
    rw [hgone a ha] at hn
    cases hn

/-- C16: `insert` at a node `c` of a chain changes no value of an existing
node; with `after = true` the only links of existing nodes that change are the
`pNext` link of `c` and the `pPrev` link of the old next neighbour of `c`, if
any; with `after = false` they are the `pPrev` link of `c` and the `pNext` link
of the old previous neighbour of `c`, if any; every other existing node is left
as it was. -/
theorem insert_footprint (h : Heap T) (hd : Ptr) (xs ys : List Nat) (c : Nat) (v : T)
    (hwf : dll h none hd (xs ++ c :: ys)) :
    ∃ cur, read h c = some cur ∧
    (∃ h1 e, insert h (some c) v true = some (h1, e) ∧ read h e = none ∧
      (∀ b, b ≠ e → (read h1 b).map Node.data = (read h b).map Node.data) ∧
      (∀ b, b ≠ e → b ≠ c → (read h1 b).map Node.pNext = (read h b).map Node.pNext) ∧
      (∀ b, b ≠ e → cur.pNext ≠ some b →
        (read h1 b).map Node.pPrev = (read h b).map Node.pPrev) ∧
      (∀ b, b ≠ e → b ≠ c → cur.pNext ≠ some b → read h1 b = read h b) ∧
      (read h1 c).map Node.pNext = some (some e) ∧
      (∀ q, cur.pNext = some q → (read h1 q).map Node.pPrev = some (some e))) ∧
    (∃ h1 e, insert h (some c) v false = some (h1, e) ∧ read h e = none ∧
      (∀ b, b ≠ e → (read h1 b).map Node.data = (read h b).map Node.data) ∧
      (∀ b, b ≠ e → b ≠ c → (read h1 b).map Node.pPrev = (read h b).map Node.pPrev) ∧
      (∀ b, b ≠ e → cur.pPrev ≠ some b →
        (read h1 b).map Node.pNext = (read h b).map Node.pNext) ∧
      (∀ b, b ≠ e → b ≠ c → cur.pPrev ≠ some b → read h1 b = read h b) ∧
      (read h1 c).map Node.pPrev = some (some e) ∧
      (∀ q, cur.pPrev = some q → (read h1 q).map Node.pNext = some (some e))) := by
  obtain ⟨cur, h1a, hc, hnext, hinsa, _, hreada, _⟩ := insert_after_dll v hwf
  obtain ⟨cur1, h1b, hc1, hprev, hinsb, _, hreadb, _⟩ := insert_before_dll v hwf
  rw [hc] at hc1
  cases hc1
  obtain ⟨_, _, _, hxs, hys, hcx, hcy, _, hlt⟩ := dll_split hwf
  have hce : c ≠ h.length := Nat.ne_of_lt (hlt c (by simp))
  have hqn : ∀ q, cur.pNext = some q → q ≠ h.length ∧ q ≠ c ∧ ∃ qn, read h q = some qn := by
    intro q hq
    rw [hnext] at hq
    have hqy : q ∈ ys := List.mem_of_mem_head? hq
    exact ⟨Nat.ne_of_lt (hlt q (by simp [hqy])), fun e => hcy (e ▸ hqy),
      lsegTo_live (dllTo_lsegTo hys) q hqy⟩
  have hqp : ∀ q, cur.pPrev = some q → q ≠ h.length ∧ q ≠ c ∧ ∃ qn, read h q = some qn := by
    intro q hq
    rw [hprev] at hq
    obtain ⟨xs1, rfl⟩ := lastPtr_eq_some hq
    have hqx : q ∈ xs1 ++ [q] := by simp
    exact ⟨Nat.ne_of_lt (hlt q (by simp)), fun e => hcx (e ▸ hqx),
      lsegTo_live (dllTo_lsegTo hxs) q hqx⟩
  refine ⟨cur, hc, ⟨h1a, h.length, hinsa, read_ge (Nat.le_refl _), ?_, ?_, ?_, ?_, ?_, ?_⟩,
    ⟨h1b, h.length, hinsb, read_ge (Nat.le_refl _), ?_, ?_, ?_, ?_, ?_, ?_⟩⟩
  · intro b hbe
    rw [hreada b]
    by_cases hbc : b = c
    · subst hbc; simp [hbe, hc]
    · by_cases hbq : cur.pNext = some b
      · simp only [hbe, hbc, hbq, if_false, if_true, Option.map_map]
        cases read h b <;> rfl
      · simp only [hbe, hbc, hbq, if_false]
  · intro b hbe hbc
    rw [hreada b]
    by_cases hbq : cur.pNext = some b
    · simp only [hbe, hbc, hbq, if_false, if_true, Option.map_map]
      cases read h b <;> rfl
    · simp only [hbe, hbc, hbq, if_false]
  · intro b hbe hbq
    rw [hreada b]
    by_cases hbc : b = c
    · subst hbc; simp [hbe, hc]
    · simp only [hbe, hbc, hbq, if_false]
  · intro b hbe hbc hbq
    rw [hreada b]
    simp only [hbe, hbc, hbq, if_false]
  · rw [hreada c]; simp [hce]
  · intro q hq
    obtain ⟨hqe, hqc, qn, hqr⟩ := hqn q hq
    rw [hreada q]; simp [hqe, hqc, hq, hqr]
  · intro b hbe
    rw [hreadb b]
    by_cases hbc : b = c
    · subst hbc; simp [hbe, hc]
    · by_cases hbq : cur.pPrev = some b
      · simp only [hbe, hbc, hbq, if_false, if_true, Option.map_map]
        cases read h b <;> rfl
      · simp only [hbe, hbc, hbq, if_false]
  · intro b hbe hbc
    rw [hreadb b]
    by_cases hbq : cur.pPrev = some b
    · simp only [hbe, hbc, hbq, if_false, if_true, Option.map_map]
      cases read h b <;> rfl
    · simp only [hbe, hbc, hbq, if_false]
  · intro b hbe hbq
    rw [hreadb b]
    by_cases hbc : b = c
    · subst hbc; simp [hbe, hc]
    · simp only [hbe, hbc, hbq, if_false]
  · intro b hbe hbc hbq
    rw [hreadb b]
    simp only [hbe, hbc, hbq, if_false]
  · rw [hreadb c]; simp [hce]
  · intro q hq
    obtain ⟨hqe, hqc, qn, hqr⟩ := hqp q hq
    rw [hreadb q]; simp [hqe, hqc, hq, hqr]

/-- C17: the display operation writes nothing: it returns the stream it was
given, whatever the chain, and the store is unchanged. -/
theorem display_noop {Out : Type} (out : Out) (h : Heap T) (pHead : Ptr) :
    (display out h pHead).1 = out ∧ (display out h pHead).2 = h :=
  ⟨rfl, rfl⟩

/-- C18: `assign` leaves its source untouched: every source node is exactly as
before, and no node of the resulting destination chain is a source node. -/
theorem assign_source_untouched (h : Heap T) (D S : Ptr) (as bs : List Nat) (fuel : Nat)
    (hd : dll h none D as) (hs : lseg h S bs) (hdisj : ∀ a ∈ as, a ∉ bs)
    (hfa : as.length ≤ fuel) (hfb : bs.length ≤ fuel) :
    ∃ h1 D1 as1, assign fuel h (Ref.var D) S = some (h1, Ref.var D1) ∧
      lseg h1 D1 as1 ∧
      (∀ b ∈ bs, read h1 b = read h b) ∧
      lseg h1 S bs ∧
      (∀ a ∈ as1, a ∉ bs) := by
  obtain ⟨h1, D1, hassign, _, _, _, hdll, _, _, hframe, _⟩ :=
    assign_spec hd hs hdisj hfa hfb
  have hlts := lsegTo_lt hs
  have hsrc : ∀ b ∈ bs, read h1 b = read h b := fun b hb =>
    hframe b (hlts b hb) (fun hm => hdisj b hm hb)
  refine ⟨h1, D1, assignNodes h as bs, hassign, dll_lseg hdll, hsrc,
    lsegTo_frame hsrc hs, ?_⟩
  intro a ha hm
  rcases List.mem_append.mp ha with h2 | h2
  · exact hdisj a (List.mem_of_mem_take h2) hm
  · have h3 := (List.mem_range'_1.mp h2).1
    have h4 := hlts a hm
    omega

/-- The first loop of `assign` when the source is the destination itself: it
walks the whole chain and writes back what it reads. -/
theorem assignWalk_self {as : List Nat} :
    ∀ {h : Heap T} {D : Ptr} (w : Ptr) {fuel : Nat}, lseg h D as → as.length ≤ fuel →
      assignWalk fuel h D D w = some (h, none, none, lastPtr w as) := by
  induction as with
  | nil =>
    intro h D w fuel hl _
    have hD : D = none := by simpa [lseg, lsegTo] using hl
    subst hD
    cases fuel <;> simp [assignWalk, lastPtr]
  | cons a as ih =>
    intro h D w fuel hl hf
    obtain ⟨hD, n, hr, hrest⟩ := lsegTo_cons.mp hl
    subst hD
    cases fuel with
    | zero => simp at hf
    | succ fuel =>
      have hf1 : as.length ≤ fuel := by simpa using hf
      have hset : h.set a (some { n with data := n.data }) = h := set_self_of_read hr
      simp only [assignWalk, setData, store, hr, Option.some_bind, hset]
      rw [ih (some a) hrest hf1, lastPtr_cons]

/-- C19: assigning a chain to itself, through any reference `r` that holds
its head `D`, returns the very same store and the same reference: nothing is
allocated or destroyed and no node changes. -/
theorem assign_self (h : Heap T) (r : Ref) (D : Ptr) (as : List Nat) (fuel : Nat)
    (hr : loadRef h r = some D) (hl : lseg h D as) (hf : as.length ≤ fuel) :
    assign fuel h r D = some (h, r) := by
  simp [assign, hr, assignWalk_self D hl hf]

/-- The function `assign` from an absent source through any reference `r` that
holds a live node `d` with a live previous neighbour `q`: the `pNext` link of
`q` is set to absent, the chain from `d` on is destroyed, and the reference is
not written. -/
theorem assign_absent_source_ref {h : Heap T} {r : Ref} {d q : Nat} {dn qn : Node T}
    {ds : List Nat} {fuel : Nat} (hr : loadRef h r = some (some d))
    (hd : read h d = some dn) (hprev : dn.pPrev = some q) (hqn : read h q = some qn)
    (hl : lseg h (some d) ds) (hqds : q ∉ ds) (hf : ds.length ≤ fuel) :
    ∃ h1, assign fuel h r none = some (h1, r) ∧
      read h1 q = some { qn with pNext := none } ∧
      (∀ b ∈ ds, read h1 b = none) ∧
      (∀ b, b ∉ ds → b ≠ q → read h1 b = read h b) := by
  have hwalk : assignWalk fuel h (some d) none (some d) = some (h, some d, none, some d) := by
    cases fuel <;> simp [assignWalk]
  have hread2 : ∀ b, read (h.set q (some { qn with pNext := none })) b
      = if b = q then some { qn with pNext := none } else read h b :=
    fun b => read_set_live hqn _ b
  have hl2 : lseg (h.set q (some { qn with pNext := none })) (some d) ds := by
    refine lsegTo_frame ?_ hl
    intro b hb
    have hbq : b ≠ q := fun e => hqds (e ▸ hb)
    rw [hread2 b]; simp [hbq]
  obtain ⟨h3, hcl, _, _, hread3⟩ := clear_lseg hl2 hf
  refine ⟨h3, ?_, ?_, ?_, ?_⟩
  · simp [assign, hr, hwalk, hd, hprev, setNext, store, hqn, hcl]
  · rw [hread3 q, hread2 q]; simp [hqds]
  · intro b hb; rw [hread3 b]; simp [hb]
  · intro b hb hbq
    rw [hread3 b, hread2 b]; simp [hb, hbq]

/-- C20 (amended): `assign` from an absent source through a reference that
holds a live node `d`.  Through a pointer variable outside the nodes: the
chain from `d` on is destroyed; the variable becomes absent when `d` has no
previous neighbour, and when `d` has a previous neighbour `q` the `pNext` link
of `q` is set to absent and the variable is left unchanged, pointing at the
destroyed `d`.  Through the `pNext` link of the previous neighbour `q` itself:
the same happens to the store, and the reference reads absent afterwards. -/
theorem assign_absent_source (h : Heap T) (d : Nat) (dn : Node T) (ds : List Nat)
    (fuel : Nat) (hd : read h d = some dn) (hl : lseg h (some d) ds)
    (hf : ds.length ≤ fuel)
    (hq : ∀ q, dn.pPrev = some q → q ∉ ds ∧ ∃ qn, read h q = some qn) :
    (∃ h1 D1, assign fuel h (Ref.var (some d)) none = some (h1, Ref.var D1) ∧
      (dn.pPrev = none → D1 = none) ∧
      (∀ q, dn.pPrev = some q → D1 = some d ∧
        read h1 q = (read h q).map fun m => { m with pNext := none }) ∧
      read h1 d = none ∧
      (∀ b ∈ ds, read h1 b = none) ∧
      (∀ b, b ∉ ds → dn.pPrev ≠ some b → read h1 b = read h b)) ∧
    (∀ q, dn.pPrev = some q → loadRef h (Ref.next q) = some (some d) →
      ∃ h1, assign fuel h (Ref.next q) none = some (h1, Ref.next q) ∧
        loadRef h1 (Ref.next q) = some none ∧
        read h1 q = (read h q).map (fun m => { m with pNext := none }) ∧
        read h1 d = none ∧
        (∀ b ∈ ds, read h1 b = none) ∧
        (∀ b, b ∉ ds → b ≠ q → read h1 b = read h b)) := by
  have hdds : d ∈ ds := by
    have := lseg_head hl
    exact List.mem_of_mem_head? this.symm
  refine ⟨?_, ?_⟩
  · cases hprev : dn.pPrev with
    | none =>
      have hwalk : assignWalk fuel h (some d) none (some d)
          = some (h, some d, none, some d) := by
        cases fuel <;> simp [assignWalk]
      obtain ⟨h1, hcl, _, _, hread⟩ := clear_lseg hl hf
      refine ⟨h1, none, ?_, fun _ => rfl, ?_, ?_, ?_, ?_⟩
      · simp [assign, loadRef, storeRef, hwalk, hd, hprev, hcl]
      · intro q hq1; cases hq1
      · rw [hread d]; simp [hdds]
      · intro b hb; rw [hread b]; simp [hb]
      · intro b hb _; rw [hread b]; simp [hb]
    | some q =>
      obtain ⟨hqds, qn, hqn⟩ := hq q hprev
      obtain ⟨h1, hassign, hq1, hgone, hframe⟩ :=
        assign_absent_source_ref (r := Ref.var (some d)) rfl hd hprev hqn hl hqds hf
      refine ⟨h1, some d, hassign, ?_, ?_, hgone d hdds, hgone, ?_⟩
      · intro e; cases e
      · intro q1 hq2
        cases hq2
        exact ⟨rfl, by rw [hq1, hqn]; rfl⟩
      · intro b hb hbq
        exact hframe b hb (fun e => hbq (by rw [e]))
  · intro q hprev hr
    obtain ⟨hqds, qn, hqn⟩ := hq q hprev
    obtain ⟨h1, hassign, hq1, hgone, hframe⟩ :=
      assign_absent_source_ref hr hd hprev hqn hl hqds hf
    refine ⟨h1, hassign, ?_, by rw [hq1, hqn]; rfl, hgone d hdds, hgone, hframe⟩
    simp [loadRef, hq1]

/-! ## The further properties at concrete chains -/

theorem chain123_lseg_from_1 : lseg chain123 (some 1) [1, 2] := by
  simp [lseg, lsegTo, read, chain123]

/-- C11 at the destination `[1, 2, 3, 4]` and the source `[9, 8]`, and the
three other cases evaluated on the same store. -/
theorem assign_head_reference_witness :
    (∃ h1 D1, assign 4 store42 (Ref.var (some 0)) (some 4) = some (h1, Ref.var D1) ∧
      ((some 0 : Ptr) ≠ none → (some 4 : Ptr) ≠ none → D1 = some 0) ∧
      ((some 0 : Ptr) = none → (some 4 : Ptr) ≠ none →
        D1 = some store42.length ∧ read store42 store42.length = none ∧
          ∃ n, read h1 store42.length = some n) ∧
      ((some 0 : Ptr) ≠ none → (some 4 : Ptr) = none →
        D1 = none ∧ ∀ a ∈ [0, 1, 2, 3], read h1 a = none) ∧
      ((some 0 : Ptr) = none → (some 4 : Ptr) = none → D1 = none ∧ h1 = store42)) ∧
    (assign 4 store42 (Ref.var (some 0)) (some 4)).map (fun r => r.2)
      = some (Ref.var (some 0)) ∧
    (assign 4 store42 (Ref.var none) (some 4)).map (fun r => r.2)
      = some (Ref.var (some 6)) ∧
    (assign 4 store42 (Ref.var (some 0)) none).map (fun r => (r.2, r.1.take 4))
      = some (Ref.var none, [none, none, none, none]) ∧
    assign 4 store42 (Ref.var none) none = some (store42, Ref.var none) :=
  ⟨assign_head_reference store42 (some 0) (some 4) [0, 1, 2, 3] [4, 5] 4 store42_dll
    store42_lseg (by decide) (by decide) (by decide), by decide, by decide, by decide,
    by decide⟩

/-- C12 at the chain `[1, 2, 3]`: the copy lives at the new addresses 3, 4, 5
and the first three cells are as before. -/
theorem copy_deep_witness :
    (∃ h1 r cs, copy 3 chain123 (some 0) = some (h1, r) ∧
      lseg h1 r cs ∧ cs.length = [0, 1, 2].length ∧
      (∀ c ∈ cs, c ∉ [0, 1, 2]) ∧
      (∀ c ∈ cs, read chain123 c = none) ∧
      (∀ b ∈ [0, 1, 2], read h1 b = read chain123 b) ∧
      (∀ b, b < chain123.length → read h1 b = read chain123 b)) ∧
    (copy 3 chain123 (some 0)).map (fun r => (r.2, r.1.take 3))
      = some (some 3, chain123) :=
  ⟨copy_deep chain123 (some 0) [0, 1, 2] 3 (dll_lseg chain123_dll) (by decide),
    by decide⟩

/-- C14 at the middle node of the chain `[1, 2, 3]`. -/
theorem insert_remove_keep_links_witness :
    (∃ h1 e, insert chain123 (some 1) 99 false = some (h1, e) ∧
      WellLinked h1 (if [0] = [] then some e else some 0) ([0] ++ e :: 1 :: [2])) ∧
    (∃ h1 e, insert chain123 (some 1) 99 true = some (h1, e) ∧
      WellLinked h1 (some 0) ([0] ++ 1 :: e :: [2])) ∧
    (∃ h1 ret, remove chain123 (some 1) = some (h1, ret) ∧
      WellLinked h1 (if [0] = [] then [2].head? else some 0) ([0] ++ [2]) ∧
      1 ∉ [0] ++ [2] ∧ read h1 1 = none) :=
  insert_remove_keep_links chain123 (some 0) [0] [2] 1 99
    (wellLinked_iff_dll.mpr chain123_dll)

/-- C15 at the source `[9, 8]` and the destination `[1, 2, 3, 4]`. -/
theorem copy_assign_wellLinked_witness :
    (∃ h1 r cs, copy 4 store42 (some 4) = some (h1, r) ∧ WellLinked h1 r cs ∧
      ∀ c ∈ cs, ∃ n, read h1 c = some n) ∧
    (∃ h1 D1 as1, assign 4 store42 (Ref.var (some 0)) (some 4) = some (h1, Ref.var D1) ∧
      WellLinked h1 D1 as1 ∧
      (∀ a ∈ as1, ∃ n, read h1 a = some n) ∧
      (∀ a ∈ [0, 1, 2, 3].drop [4, 5].length, read h1 a = none ∧ a ∉ as1)) :=
  ⟨(copy_assign_wellLinked store42 (some 4) [4, 5] 4 store42_lseg (by decide)).1,
    (copy_assign_wellLinked store42 (some 4) [4, 5] 4 store42_lseg (by decide)).2
      (some 0) [0, 1, 2, 3] (wellLinked_iff_dll.mpr store42_dll) (by decide) (by decide)⟩

/-- C16 at the middle node of the chain `[1, 2, 3]`. -/
theorem insert_footprint_witness :
    ∃ cur, read chain123 1 = some cur ∧
    (∃ h1 e, insert chain123 (some 1) 99 true = some (h1, e) ∧ read chain123 e = none ∧
      (∀ b, b ≠ e → (read h1 b).map Node.data = (read chain123 b).map Node.data) ∧
      (∀ b, b ≠ e → b ≠ 1 →
        (read h1 b).map Node.pNext = (read chain123 b).map Node.pNext) ∧
      (∀ b, b ≠ e → cur.pNext ≠ some b →
        (read h1 b).map Node.pPrev = (read chain123 b).map Node.pPrev) ∧
      (∀ b, b ≠ e → b ≠ 1 → cur.pNext ≠ some b → read h1 b = read chain123 b) ∧
      (read h1 1).map Node.pNext = some (some e) ∧
      (∀ q, cur.pNext = some q → (read h1 q).map Node.pPrev = some (some e))) ∧
    (∃ h1 e, insert chain123 (some 1) 99 false = some (h1, e) ∧ read chain123 e = none ∧
      (∀ b, b ≠ e → (read h1 b).map Node.data = (read chain123 b).map Node.data) ∧
      (∀ b, b ≠ e → b ≠ 1 →
        (read h1 b).map Node.pPrev = (read chain123 b).map Node.pPrev) ∧
      (∀ b, b ≠ e → cur.pPrev ≠ some b →
        (read h1 b).map Node.pNext = (read chain123 b).map Node.pNext) ∧
      (∀ b, b ≠ e → b ≠ 1 → cur.pPrev ≠ some b → read h1 b = read chain123 b) ∧
      (read h1 1).map Node.pPrev = some (some e) ∧
      (∀ q, cur.pPrev = some q → (read h1 q).map Node.pNext = some (some e))) :=
  insert_footprint chain123 (some 0) [0] [2] 1 99 chain123_dll

/-- C18 at the destination `[1, 2, 3, 4]` and the source `[9, 8]`. -/
theorem assign_source_untouched_witness :
    (∃ h1 D1 as1, assign 4 store42 (Ref.var (some 0)) (some 4) = some (h1, Ref.var D1) ∧
      lseg h1 D1 as1 ∧
      (∀ b ∈ [4, 5], read h1 b = read store42 b) ∧
      lseg h1 (some 4) [4, 5] ∧
      (∀ a ∈ as1, a ∉ [4, 5])) ∧
    (assign 4 store42 (Ref.var (some 0)) (some 4)).map (fun r => r.1.drop 4)
      = some (store42.drop 4) :=
  ⟨assign_source_untouched store42 (some 0) (some 4) [0, 1, 2, 3] [4, 5] 4 store42_dll
    store42_lseg (by decide) (by decide) (by decide), by decide⟩

/-- C19 at the chain `[1, 2, 3]`. -/
theorem assign_self_witness :
    assign 3 chain123 (Ref.var (some 0)) (some 0) = some (chain123, Ref.var (some 0)) :=
  assign_self chain123 (Ref.var (some 0)) (some 0) [0, 1, 2] 3 rfl (dll_lseg chain123_dll)
    (by decide)

/-- C20 as stated fails when the destination reference is the `pNext` link of
the previous neighbour: on the chain `[1, 2, 3]`, the reference `pNext` of the
node at address 0 points at the node at address 1, which has a previous
neighbour, and after `assign` from an absent source it reads absent, not
address 1. -/
theorem assign_absent_source_counterexample :
    loadRef chain123 (Ref.next 0) = some (some 1) ∧
    (read chain123 1).bind Node.pPrev = some 0 ∧
    (assign 2 chain123 (Ref.next 0) none).bind (fun r => loadRef r.1 r.2) = some none ∧
    ¬ ((assign 2 chain123 (Ref.next 0) none).bind (fun r => loadRef r.1 r.2)
        = some (some 1)) := by
  decide

/-- C20 (amended) at the middle node of the chain `[1, 2, 3]`: the nodes
holding 2 and 3 are destroyed and the node holding 1 becomes the tail; a
pointer variable still holds address 1, and the `pNext` link of the node at
address 0 reads absent. -/
theorem assign_absent_source_witness :
    ((∃ h1 D1, assign 2 chain123 (Ref.var (some 1)) none = some (h1, Ref.var D1) ∧
      ((Node.mk 2 (some 2) (some 0)).pPrev = none → D1 = none) ∧
      (∀ q, (Node.mk 2 (some 2) (some 0)).pPrev = some q → D1 = some 1 ∧
        read h1 q = (read chain123 q).map fun m => { m with pNext := none }) ∧
      read h1 1 = none ∧
      (∀ b ∈ [1, 2], read h1 b = none) ∧
      (∀ b, b ∉ [1, 2] → (Node.mk 2 (some 2) (some 0)).pPrev ≠ some b →
        read h1 b = read chain123 b)) ∧
    (∀ q, (Node.mk 2 (some 2) (some 0)).pPrev = some q →
      loadRef chain123 (Ref.next q) = some (some 1) →
      ∃ h1, assign 2 chain123 (Ref.next q) none = some (h1, Ref.next q) ∧
        loadRef h1 (Ref.next q) = some none ∧
        read h1 q = (read chain123 q).map (fun m => { m with pNext := none }) ∧
        read h1 1 = none ∧
        (∀ b ∈ [1, 2], read h1 b = none) ∧
        (∀ b, b ∉ [1, 2] → b ≠ q → read h1 b = read chain123 b))) ∧
    assign 2 chain123 (Ref.var (some 1)) none
      = some ([some ⟨1, none, none⟩, none, none], Ref.var (some 1)) ∧
    assign 2 chain123 (Ref.next 0) none
      = some ([some ⟨1, none, none⟩, none, none], Ref.next 0) :=
  ⟨assign_absent_source chain123 1 ⟨2, some 2, some 0⟩ [1, 2] 2 (by decide)
      chain123_lseg_from_1 (by decide)
      (by intro q hq; cases hq; exact ⟨by decide, _, rfl⟩),
    by decide, by decide⟩

end NodeList
